import Mathlib

/-!
Shallow embedding of the conversation-delivery pipeline of the ChatAiMobile
repository: token estimator (`TokenEstimator`), context trimmers
(`TokenUtils`, `AITokenUtils`), response cache (`ResponseCache`), message
queue (`MessageQueue`), versioned conversation store (`Conversations`) and
the provider adapter (`Adapter`).

Modelling conventions used throughout:
* Machine numbers are `Nat`/`Int`; JavaScript 32-bit wrapping (`x & x`,
  `x << 5`) is made explicit through `toInt32`.
* JavaScript floating-point constants that only occur scaled by exact
  powers (the 0.8 safety margin on round token limits, the per-class
  multipliers 1.0/0.5/2.0/... in tenths, the 1.1 buffer as 11/100, the
  characters-per-token ratios 3.5/4.0/4.2) are represented by exact
  rational arithmetic over `Nat`; at every point evaluated here the IEEE
  double computation of the source agrees with the rational value.
* Strings are Lean `String`s; `charCodeAt` is modelled by `Char.toNat`,
  which agrees with UTF-16 code units on the basic multilingual plane.
* `AsyncStorage` is an association list of string keys; `JSON.parse ∘
  JSON.stringify` round trips are the identity, so records are stored
  structurally.
* Asynchronous functions are state-passing pure functions; network calls
  are oracles passed in as parameters.
-/

/-- Provider type from `ai/generateText` (`'gemini' | 'openai' | 'anthropic'`). -/
inductive Provider where
  | gemini
  | openai
  | anthropic
deriving DecidableEq, Repr

/-- Image payload `\x7buri, base64?, mimeType?\x7d` used by messages and turns. -/
structure ImageData where
  uri : String
  base64 : Option String
  mimeType : Option String
deriving DecidableEq, Repr

/-- Role of a chat turn (`'user' | 'model'`). -/
inductive Role where
  | user
  | model
deriving DecidableEq, Repr

/-- Chat turn `\x7brole, text, image?\x7d` as used by the adapter and both trimmers. -/
structure ChatTurn where
  role : Role
  text : String
  image : Option ImageData
deriving DecidableEq, Repr

namespace TokenEstimator

/- Character classes of the regex patterns in `TokenEstimator.PATTERNS`
(`utils/tokenizer.ts`).  JavaScript `\w` is `[A-Za-z0-9_]`. -/

/-- `\w` character class. -/
def isWordChar (c : Char) : Bool :=
  (65 ≤ c.toNat && c.toNat ≤ 90) || (97 ≤ c.toNat && c.toNat ≤ 122) ||
    (48 ≤ c.toNat && c.toNat ≤ 57) || c.toNat == 95

/-- JavaScript `\s` character class (ASCII whitespace plus the Unicode
space separators it matches). -/
def isSpaceChar (c : Char) : Bool :=
  c.toNat == 9 || c.toNat == 10 || c.toNat == 11 || c.toNat == 12 ||
  c.toNat == 13 || c.toNat == 32 || c.toNat == 160 || c.toNat == 5760 ||
  (8192 ≤ c.toNat && c.toNat ≤ 8202) || c.toNat == 8232 ||
  c.toNat == 8233 || c.toNat == 8239 || c.toNat == 8287 ||
  c.toNat == 12288 || c.toNat == 65279

/-- `\d` character class. -/
def isDigitChar (c : Char) : Bool :=
  48 ≤ c.toNat && c.toNat ≤ 57

/-- Number of matches of `/p+/g`: maximal runs of characters satisfying `p`.
The boolean state records whether the scanner is inside a run. -/
def countRunsAux (p : Char → Bool) : Bool → List Char → Nat
  | _, [] => 0
  | inRun, c :: cs =>
    if p c then (if inRun then 0 else 1) + countRunsAux p true cs
    else countRunsAux p false cs

/-- Number of maximal runs of `p`-characters in `cs`; this is the match
count of `/\w+/g` (for `p = isWordChar`) and of `/[^\w\s]+/g`. -/
def countRuns (p : Char → Bool) (cs : List Char) : Nat :=
  countRunsAux p false cs

/-- Scanner state for counting matches of `/\d+\.?\d*/g`. -/
inductive NumSt where
  | idle
  | intPart
  | dotPart
  | fracPart
deriving DecidableEq, Repr

/-- One step of the `/\d+\.?\d*/g` match counter: the first component is 1
exactly when a new match starts at this character. -/
def numStep (st : NumSt) (c : Char) : Nat × NumSt :=
  match st with
  | .idle => if isDigitChar c then (1, .intPart) else (0, .idle)
  | .intPart =>
    if isDigitChar c then (0, .intPart)
    else if c = '.' then (0, .dotPart) else (0, .idle)
  | .dotPart => if isDigitChar c then (0, .fracPart) else (0, .idle)
  | .fracPart => if isDigitChar c then (0, .fracPart) else (0, .idle)

/-- Count matches of `/\d+\.?\d*/g` from a given scanner state. -/
def countNumbersAux : NumSt → List Char → Nat
  | _, [] => 0
  | st, c :: cs =>
    let s := numStep st c
    s.1 + countNumbersAux s.2 cs

/-- Match count of the `NUMBERS` pattern `/\d+\.?\d*/g`. -/
def countNumbers (cs : List Char) : Nat :=
  countNumbersAux .idle cs

/-- Per-class weights of `PROVIDER_MULTIPLIERS`, scaled by 10 so that they
are exact naturals (e.g. openai word 1.0 ↦ 10, punctuation 0.5 ↦ 5). The
`whitespace` weight of the source is never used by `estimateTokens`. -/
structure Multipliers where
  word : Nat
  punctuation : Nat
  unicode : Nat
  number : Nat
deriving DecidableEq, Repr

/-- `PROVIDER_MULTIPLIERS`, in tenths. -/
def providerMultipliers : Provider → Multipliers
  | .openai => ⟨10, 5, 20, 8⟩
  | .anthropic => ⟨11, 6, 22, 9⟩
  | .gemini => ⟨9, 4, 18, 7⟩

/-- The weighted class counts of `estimateTokens` (in tenths): word matches,
punctuation-cluster matches, non-ASCII characters and number matches, each
times its provider multiplier. -/
def weightedTenths (cs : List Char) (m : Multipliers) : Nat :=
  countRuns isWordChar cs * m.word +
    countRuns (fun c => !isWordChar c && !isSpaceChar c) cs * m.punctuation +
    cs.countP (fun c => 128 ≤ c.toNat) * m.unicode +
    countNumbers cs * m.number

/-- `TokenEstimator.estimateTokens`: class counts weighted per provider,
minimum 1 token for non-empty text, times the 1.1 buffer, ceiled.  The
accumulated weight is kept in tenths, so `Math.ceil(total * 1.1)` is
`⌈tenths * 11 / 100⌉`. -/
def estimateTokens (text : String) (provider : Provider) : Nat :=
  if text.data.length = 0 then 0
  else
    let totalTenths := weightedTenths text.data (providerMultipliers provider)
    let totalTenths := if totalTenths < 10 then 10 else totalTenths
    (totalTenths * 11 + 99) / 100

/-- `TokenEstimator.estimateTokensFast`: `Math.ceil(length / ratio)` with
ratio 3.5 (gemini), 4.2 (anthropic), 4.0 (openai), as exact rationals. -/
def estimateTokensFast (text : String) (provider : Provider) : Nat :=
  let len := text.data.length
  if len = 0 then 0
  else
    match provider with
    | .gemini => (2 * len + 6) / 7
    | .anthropic => (5 * len + 20) / 21
    | .openai => (len + 3) / 4

/-- `TokenEstimator.smartEstimate`: fast estimation beyond 10000 chars. -/
def smartEstimate (text : String) (provider : Provider) : Nat :=
  if text.data.length = 0 then 0
  else if 10000 < text.data.length then estimateTokensFast text provider
  else estimateTokens text provider

/-- Fixed per-image token surcharge used by `estimateConversationTokens`. -/
def imageCost : Provider → Nat
  | .gemini => 258
  | .anthropic => 1568
  | .openai => 765

/-- `TokenEstimator.estimateConversationTokens` over `\x7btext, image?\x7d`
records: text estimate plus per-image cost, plus the structure overhead
`Math.ceil(messages.length * 0.5)`. -/
def estimateConversationTokens (messages : List (String × Option ImageData))
    (provider : Provider) : Nat :=
  (messages.foldl
    (fun total msg =>
      total + smartEstimate msg.1 provider +
        (if msg.2.isSome then imageCost provider else 0))
    0) + (messages.length + 1) / 2

end TokenEstimator

/-- `TOKEN_LIMITS` (identical in `utils/tokenUtils.ts` and the tokenizer-based
variant). -/
def TOKEN_LIMITS : Provider → Nat
  | .gemini => 1000000
  | .openai => 128000
  | .anthropic => 200000

/-- `Math.floor(TOKEN_LIMITS[provider] * SAFETY_MARGIN)` with
`SAFETY_MARGIN = 0.8`.  On the three round limits above, the double
computation evaluates exactly to `limit * 4 / 5`. -/
def getContextLimit (provider : Provider) : Nat :=
  TOKEN_LIMITS provider * 4 / 5

/-- The `for (let i = history.length - 1; ...)` accumulation loop shared by
both trimmers, run over the reversed history: take turns while the
running total stays within `avail`, stop (excluding the turn) otherwise.
`est` is the per-turn token estimate of the source loop body. -/
def trimLoop (est : ChatTurn → Nat) (avail : Nat) : Nat → List ChatTurn → List ChatTurn
  | _, [] => []
  | total, t :: rest =>
    if avail < total + est t then []
    else t :: trimLoop est avail (total + est t) rest

namespace TokenUtils

/-- `estimateTokens` of `utils/tokenUtils.ts`: `Math.ceil(text.length / 4)`. -/
def estimateTokens (text : String) : Nat :=
  (text.data.length + 3) / 4

/-- `trimContextByTokens` of `utils/tokenUtils.ts` (no image parameter):
reserve the prompt estimate, return `[]` if nothing is available, else walk
the history from newest to oldest accumulating estimates and return the
collected turns in original order. -/
def trimContextByTokens (history : List ChatTurn) (newPrompt : String)
    (provider : Provider) : List ChatTurn :=
  let contextLimit := getContextLimit provider
  let promptTokens := estimateTokens newPrompt
  if contextLimit ≤ promptTokens then []
  else
    let availableTokens := contextLimit - promptTokens
    (trimLoop (fun t => estimateTokens t.text) availableTokens 0 history.reverse).reverse

end TokenUtils

namespace AITokenUtils

/-- `estimateTokens` of the tokenizer-based `tokenUtils` variant: delegates
to `TokenEstimator.smartEstimate`. -/
def estimateTokens (text : String) (provider : Provider) : Nat :=
  TokenEstimator.smartEstimate text provider

/-- Per-turn estimate used inside the trimmer loop: conversation estimate
when the turn carries an image, plain text estimate otherwise. -/
def turnEstimate (provider : Provider) (t : ChatTurn) : Nat :=
  if t.image.isSome then
    TokenEstimator.estimateConversationTokens [(t.text, t.image)] provider
  else estimateTokens t.text provider

/-- Token surcharge reserved for the new image:
`newImage ? TokenEstimator.estimateConversationTokens([\x7btext: '', image: newImage\x7d], provider) : 0`. -/
def imageTokens (newImage : Option ImageData) (provider : Provider) : Nat :=
  match newImage with
  | some img => TokenEstimator.estimateConversationTokens [("", some img)] provider
  | none => 0

/-- `trimContextByTokens` of the tokenizer-based variant, with the new
image's surcharge reserved alongside the prompt
(`availableTokens = contextLimit - promptTokens - imageTokens`;
`availableTokens <= 0` returns the empty history). -/
def trimContextByTokens (history : List ChatTurn) (newPrompt : String)
    (provider : Provider) (newImage : Option ImageData) : List ChatTurn :=
  let contextLimit := getContextLimit provider
  let promptTokens := estimateTokens newPrompt provider
  if contextLimit ≤ promptTokens + imageTokens newImage provider then []
  else
    let availableTokens := contextLimit - promptTokens - imageTokens newImage provider
    (trimLoop (turnEstimate provider) availableTokens 0 history.reverse).reverse

end AITokenUtils

/-! Lemmas about the shared trimming loop. -/

/-- The loop always returns an initial segment of the list it walks. -/
theorem trimLoop_eq_take (est : ChatTurn → Nat) (avail : Nat) :
    ∀ (total : Nat) (l : List ChatTurn), ∃ k, trimLoop est avail total l = l.take k := by
  intro total l
  induction l generalizing total with
  | nil => exact ⟨0, rfl⟩
  | cons t rest ih =>
    rw [trimLoop]
    by_cases h : avail < total + est t
    · exact ⟨0, by simp [h]⟩
    · obtain ⟨k, hk⟩ := ih (total + est t)
      exact ⟨k + 1, by simp [h, hk]⟩

/-- The loop never accumulates beyond the available budget. -/
theorem trimLoop_sum_le (est : ChatTurn → Nat) (avail : Nat) :
    ∀ (total : Nat) (l : List ChatTurn), total ≤ avail →
      total + ((trimLoop est avail total l).map est).sum ≤ avail := by
  intro total l
  induction l generalizing total with
  | nil => intro h; simpa using h
  | cons t rest ih =>
    intro h
    rw [trimLoop]
    by_cases hlt : avail < total + est t
    · simpa [hlt] using h
    · have h' : total + est t ≤ avail := Nat.le_of_not_lt hlt
      have := ih (total + est t) h'
      simp only [if_neg hlt, List.map_cons, List.sum_cons]
      omega

/-- A reversed initial segment of the reversed list is a final segment. -/
theorem reverse_take_of_reverse_suffix (l : List ChatTurn) (k : Nat) :
    ∃ t, t ++ ((l.reverse.take k).reverse) = l := by
  refine ⟨(l.reverse.drop k).reverse, ?_⟩
  have h : l.reverse.take k ++ l.reverse.drop k = l.reverse := List.take_append_drop _ _
  calc (l.reverse.drop k).reverse ++ (l.reverse.take k).reverse
      = (l.reverse.take k ++ l.reverse.drop k).reverse := (List.reverse_append _ _).symm
    _ = l.reverse.reverse := by rw [h]
    _ = l := List.reverse_reverse l

/-- Both properties of the shared trimming scheme, for an arbitrary
per-turn estimate and a reserve strictly below the budget: the result is a
final segment of the history and its estimates plus the reserve stay
within the budget. -/
theorem trim_scheme (est : ChatTurn → Nat) (avail : Nat) (history : List ChatTurn) :
    (∃ t, t ++ (trimLoop est avail 0 history.reverse).reverse = history) ∧
    ((trimLoop est avail 0 history.reverse).reverse.map est).sum ≤ avail := by
  have hsum := trimLoop_sum_le est avail 0 history.reverse (Nat.zero_le _)
  obtain ⟨k, hk⟩ := trimLoop_eq_take est avail 0 history.reverse
  constructor
  · obtain ⟨t, ht⟩ := reverse_take_of_reverse_suffix history k
    exact ⟨t, by rw [hk]; exact ht⟩
  · have hrev : ((trimLoop est avail 0 history.reverse).reverse.map est).sum
        = ((trimLoop est avail 0 history.reverse).map est).sum := by
      rw [List.map_reverse, List.sum_reverse]
    rw [hrev]
    omega

/-- C1: for every history, prompt, provider (and optional image), the
trimmed history is a contiguous suffix of the history in original order;
the sum of the per-turn token estimates of the returned turns plus the
prompt estimate stays within the provider budget whenever the prompt
estimate is below the budget; and when the prompt estimate plus the image
surcharge meets or exceeds the budget the empty history is returned.  This
is proved for both implementations of `trimContextByTokens` (the
tokenizer-based variant with image surcharge, and the `utils/tokenUtils.ts`
variant). -/
theorem c1_trimContextByTokens_suffix_and_budget :
    (∀ (history : List ChatTurn) (newPrompt : String) (provider : Provider)
        (newImage : Option ImageData),
      (∃ t, t ++ AITokenUtils.trimContextByTokens history newPrompt provider newImage
          = history) ∧
      (AITokenUtils.estimateTokens newPrompt provider < getContextLimit provider →
        ((AITokenUtils.trimContextByTokens history newPrompt provider newImage).map
            (AITokenUtils.turnEstimate provider)).sum
          + AITokenUtils.estimateTokens newPrompt provider ≤ getContextLimit provider) ∧
      (AITokenUtils.trimContextByTokens history newPrompt provider newImage = [] ∨
        AITokenUtils.estimateTokens newPrompt provider
          + AITokenUtils.imageTokens newImage provider < getContextLimit provider)) ∧
    (∀ (history : List ChatTurn) (newPrompt : String) (provider : Provider),
      (∃ t, t ++ TokenUtils.trimContextByTokens history newPrompt provider = history) ∧
      (TokenUtils.estimateTokens newPrompt < getContextLimit provider →
        ((TokenUtils.trimContextByTokens history newPrompt provider).map
            (fun t => TokenUtils.estimateTokens t.text)).sum
          + TokenUtils.estimateTokens newPrompt ≤ getContextLimit provider) ∧
      (TokenUtils.trimContextByTokens history newPrompt provider = [] ∨
        TokenUtils.estimateTokens newPrompt < getContextLimit provider)) := by
  constructor
  · intro history newPrompt provider newImage
    by_cases hb : getContextLimit provider ≤ AITokenUtils.estimateTokens newPrompt provider
        + AITokenUtils.imageTokens newImage provider
    · have hr : AITokenUtils.trimContextByTokens history newPrompt provider newImage = [] := by
        unfold AITokenUtils.trimContextByTokens
        simp [hb]
      rw [hr]
      exact ⟨⟨history, by simp⟩, fun hp => by simpa using Nat.le_of_lt hp, Or.inl rfl⟩
    · have h := trim_scheme (AITokenUtils.turnEstimate provider)
        (getContextLimit provider - AITokenUtils.estimateTokens newPrompt provider
          - AITokenUtils.imageTokens newImage provider) history
      have hr : AITokenUtils.trimContextByTokens history newPrompt provider newImage
          = (trimLoop (AITokenUtils.turnEstimate provider)
              (getContextLimit provider - AITokenUtils.estimateTokens newPrompt provider
                - AITokenUtils.imageTokens newImage provider) 0 history.reverse).reverse := by
        unfold AITokenUtils.trimContextByTokens
        simp only [if_neg hb]
      rw [hr]
      refine ⟨h.1, fun hp => ?_, Or.inr (by omega)⟩
      have := h.2
      omega
  · intro history newPrompt provider
    by_cases hb : getContextLimit provider ≤ TokenUtils.estimateTokens newPrompt
    · have hr : TokenUtils.trimContextByTokens history newPrompt provider = [] := by
        unfold TokenUtils.trimContextByTokens
        simp [hb]
      rw [hr]
      exact ⟨⟨history, by simp⟩, fun hp => by simpa using Nat.le_of_lt hp, Or.inl rfl⟩
    · have h := trim_scheme (fun t => TokenUtils.estimateTokens t.text)
        (getContextLimit provider - TokenUtils.estimateTokens newPrompt) history
      have hr : TokenUtils.trimContextByTokens history newPrompt provider
          = (trimLoop (fun t => TokenUtils.estimateTokens t.text)
              (getContextLimit provider - TokenUtils.estimateTokens newPrompt)
              0 history.reverse).reverse := by
        unfold TokenUtils.trimContextByTokens
        simp only [if_neg hb]
      rw [hr]
      refine ⟨h.1, fun hp => ?_, Or.inr (by omega)⟩
      have := h.2
      omega

/-- Witness for C1: at a concrete small input, the suffix decomposition and
the budget bound, obtained by applying the theorem and discharging its
prompt-below-budget hypothesis. -/
theorem c1_trimContextByTokens_suffix_and_budget_witness :
    (∃ t, t ++ AITokenUtils.trimContextByTokens [⟨.user, "hello", none⟩] "hi" .openai none
        = [⟨.user, "hello", none⟩]) ∧
    (((AITokenUtils.trimContextByTokens [⟨.user, "hello", none⟩] "hi" .openai none).map
        (AITokenUtils.turnEstimate .openai)).sum
      + AITokenUtils.estimateTokens "hi" .openai ≤ getContextLimit .openai) ∧
    (((TokenUtils.trimContextByTokens [⟨.user, "hello", none⟩] "hi" .openai).map
        (fun t => TokenUtils.estimateTokens t.text)).sum
      + TokenUtils.estimateTokens "hi" ≤ getContextLimit .openai) :=
  ⟨(c1_trimContextByTokens_suffix_and_budget.1 [⟨.user, "hello", none⟩] "hi" .openai none).1,
   (c1_trimContextByTokens_suffix_and_budget.1
      [⟨.user, "hello", none⟩] "hi" .openai none).2.1 (by decide),
   (c1_trimContextByTokens_suffix_and_budget.2
      [⟨.user, "hello", none⟩] "hi" .openai).2.1 (by decide)⟩

/-! Monotonicity of the token estimator under appending characters, and its
failure for mere length comparison. -/

namespace TokenEstimator

/-- Extending the scanned text never loses a run already counted. -/
theorem countRunsAux_le_append (p : Char → Bool) (m : List Char) :
    ∀ (l : List Char) (b : Bool), countRunsAux p b l ≤ countRunsAux p b (l ++ m) := by
  intro l
  induction l with
  | nil => intro b; simp [countRunsAux]
  | cons c cs ih =>
    intro b
    by_cases h : p c <;> simp [countRunsAux, h] <;> exact ih _

/-- Extending the scanned text never loses a number match already counted. -/
theorem countNumbersAux_le_append (m : List Char) :
    ∀ (l : List Char) (st : NumSt), countNumbersAux st l ≤ countNumbersAux st (l ++ m) := by
  intro l
  induction l with
  | nil => intro st; simp [countNumbersAux]
  | cons c cs ih =>
    intro st
    simp only [List.cons_append, countNumbersAux]
    exact Nat.add_le_add_left (ih _) _

/-- The weighted class total is monotone under appending characters. -/
theorem weightedTenths_le_append (l m : List Char) (mult : Multipliers) :
    weightedTenths l mult ≤ weightedTenths (l ++ m) mult := by
  unfold weightedTenths countRuns countNumbers
  have h1 := countRunsAux_le_append isWordChar m l false
  have h2 := countRunsAux_le_append (fun c => !isWordChar c && !isSpaceChar c) m l false
  have h3 : l.countP (fun c => 128 ≤ c.toNat) ≤ (l ++ m).countP (fun c => 128 ≤ c.toNat) := by
    rw [List.countP_append]
    exact Nat.le_add_right _ _
  have h4 := countNumbersAux_le_append m l .idle
  have := Nat.mul_le_mul_right mult.word h1
  have := Nat.mul_le_mul_right mult.punctuation h2
  have := Nat.mul_le_mul_right mult.unicode h3
  have := Nat.mul_le_mul_right mult.number h4
  omega

/-- `estimateTokens` is monotone under appending characters. -/
theorem estimateTokens_le_append (t u : String) (provider : Provider) :
    estimateTokens t provider ≤ estimateTokens (t ++ u) provider := by
  by_cases h0 : t.data.length = 0
  · unfold estimateTokens
    rw [if_pos h0]
    exact Nat.zero_le _
  · have hdata : (t ++ u).data = t.data ++ u.data := String.data_append t u
    have h0' : (t ++ u).data.length ≠ 0 := by
      rw [hdata, List.length_append]
      omega
    unfold estimateTokens
    rw [if_neg h0, if_neg h0', hdata]
    have hW := weightedTenths_le_append t.data u.data (providerMultipliers provider)
    have hadj : (if weightedTenths t.data (providerMultipliers provider) < 10 then 10
        else weightedTenths t.data (providerMultipliers provider))
      ≤ (if weightedTenths (t.data ++ u.data) (providerMultipliers provider) < 10 then 10
        else weightedTenths (t.data ++ u.data) (providerMultipliers provider)) := by
      split_ifs <;> omega
    have := Nat.mul_le_mul_right 11 hadj
    exact Nat.div_le_div_right (by omega)

/-- `estimateTokensFast` only depends monotonically on the length. -/
theorem estimateTokensFast_le_of_length_le (t u : String) (provider : Provider)
    (h : t.data.length ≤ u.data.length) :
    estimateTokensFast t provider ≤ estimateTokensFast u provider := by
  unfold estimateTokensFast
  by_cases h0 : t.data.length = 0
  · rw [if_pos h0]
    exact Nat.zero_le _
  · have h0' : u.data.length ≠ 0 := by omega
    rw [if_neg h0, if_neg h0']
    cases provider <;> exact Nat.div_le_div_right (by omega)

end TokenEstimator

/-- C8 counterexample: the token estimator is not monotonic in text length.
`"a a a"` (5 characters, three words) estimates strictly above the longer
`"aaaaaa"` (6 characters, one word), under both `smartEstimate` and
`estimateTokens`, for the openai provider. -/
theorem c8_estimator_not_length_monotonic :
    ("a a a".data.length ≤ "aaaaaa".data.length) ∧
    TokenEstimator.smartEstimate "aaaaaa" .openai
      < TokenEstimator.smartEstimate "a a a" .openai ∧
    TokenEstimator.estimateTokens "aaaaaa" .openai
      < TokenEstimator.estimateTokens "a a a" .openai := by
  refine ⟨by decide, by decide, by decide⟩

/-- C8 amended: for every provider, the token estimator is monotonic under
appending characters as long as the append does not cross the
10000-character fast-estimation threshold: if the extended text still has
at most 10000 characters, or the original text already exceeds 10000
characters, then `smartEstimate text ≤ smartEstimate (text ++ suffix)`. -/
theorem c8_smartEstimate_append_monotonic (provider : Provider) (t u : String)
    (h : (t ++ u).data.length ≤ 10000 ∨ 10000 < t.data.length) :
    TokenEstimator.smartEstimate t provider
      ≤ TokenEstimator.smartEstimate (t ++ u) provider := by
  have hdata : (t ++ u).data = t.data ++ u.data := String.data_append t u
  have hlen : (t ++ u).data.length = t.data.length + u.data.length := by
    rw [hdata, List.length_append]
  by_cases h0 : t.data.length = 0
  · unfold TokenEstimator.smartEstimate
    rw [if_pos h0]
    exact Nat.zero_le _
  · have h0' : (t ++ u).data.length ≠ 0 := by omega
    rcases h with hsmall | hbig
    · have ht : ¬ 10000 < t.data.length := by omega
      have htu : ¬ 10000 < (t ++ u).data.length := by omega
      unfold TokenEstimator.smartEstimate
      rw [if_neg h0, if_neg h0', if_neg ht, if_neg htu]
      exact TokenEstimator.estimateTokens_le_append t u provider
    · have htu : 10000 < (t ++ u).data.length := by omega
      unfold TokenEstimator.smartEstimate
      rw [if_neg h0, if_neg h0', if_pos hbig, if_pos htu]
      exact TokenEstimator.estimateTokensFast_le_of_length_le t (t ++ u) provider (by omega)

/-- Witness for the amended C8: appending `"c"` to `"ab"` stays below the
threshold and the estimate does not decrease. -/
theorem c8_smartEstimate_append_monotonic_witness :
    TokenEstimator.smartEstimate "ab" .openai
      ≤ TokenEstimator.smartEstimate ("ab" ++ "c") .openai :=
  c8_smartEstimate_append_monotonic .openai "ab" "c" (Or.inl (by decide))

/-! Conversation store with version history (`utils/conversations.ts`). -/

namespace Conversations

/-- `MessageReaction` record. -/
structure MessageReaction where
  emoji : String
  timestamp : String
deriving DecidableEq, Repr

/-- `MessageVersion` record. -/
structure MessageVersion where
  text : String
  provider : Option String
  timestamp : String
  version : Nat
  isActive : Bool
deriving DecidableEq, Repr

/-- `editHistory` record of a message. -/
structure EditHistory where
  originalText : String
  editedAt : String
  editCount : Nat
deriving DecidableEq, Repr

/-- `ChatMessage` record. -/
structure ChatMessage where
  role : Role
  text : String
  provider : Option String
  image : Option ImageData
  reactions : Option (List MessageReaction)
  isFavorite : Option Bool
  id : Option String
  versions : Option (List MessageVersion)
  editHistory : Option EditHistory
deriving DecidableEq, Repr

/-- `Conversation` record. -/
structure Conversation where
  id : String
  title : Option String
  createdAt : String
  updatedAt : String
  provider : String
  model : String
  messages : List ChatMessage
  folderId : Option String
  tags : Option (List String)
deriving DecidableEq, Repr

/-- The persisted state: one record per conversation under
`conversation_<id>`, plus the id list under `conversation_ids`. -/
structure Store where
  convs : List (String × Conversation)
  ids : List String
deriving DecidableEq, Repr

/-- `AsyncStorage.getItem(keyFor(id))` followed by `JSON.parse`. -/
def loadConversation (st : Store) (id : String) : Option Conversation :=
  (st.convs.find? (fun kv => kv.1 = id)).map (·.2)

/-- Replace the value stored at an existing key, first occurrence. -/
def setRecord (convs : List (String × Conversation)) (id : String)
    (c : Conversation) : List (String × Conversation) :=
  match convs with
  | [] => [(id, c)]
  | kv :: rest => if kv.1 = id then (id, c) :: rest else kv :: setRecord rest id c

/-- `addIdToList`: append the id to `conversation_ids` if not present. -/
def addIdToList (ids : List String) (id : String) : List String :=
  if id ∈ ids then ids else ids ++ [id]

/-- `saveConversation`: rewrite `updatedAt`, store the record, maintain the
id list. -/
def saveConversation (st : Store) (c : Conversation) (now : String) : Store :=
  { convs := setRecord st.convs c.id { c with updatedAt := now },
    ids := addIdToList st.ids c.id }

/-- `message.versions.forEach(v => v.isActive = false)`. -/
def deactivateAll (vs : List MessageVersion) : List MessageVersion :=
  vs.map (fun v => { v with isActive := false })

/-- The synthesized `version 1` record created on first edit from the
pre-edit message (`timestamp: conversation.createdAt`, inactive). -/
def initialVersions (message : ChatMessage) (createdAt : String) : List MessageVersion :=
  [{ text := message.text, provider := message.provider, timestamp := createdAt,
     version := 1, isActive := false }]

/-- The message-level effect of `editMessageWithVersions`: synthesize
`version 1` when the message has no versions, deactivate all versions,
append the new active version numbered `versions.length + 1`, mirror the
text, update the edit history. -/
def editedMessage (message : ChatMessage) (createdAt newText now : String) : ChatMessage :=
  let versions := message.versions.getD (initialVersions message createdAt)
  let newVersion : MessageVersion :=
    { text := newText, provider := message.provider, timestamp := now,
      version := versions.length + 1, isActive := true }
  let versions := deactivateAll versions ++ [newVersion]
  let editHistory :=
    match message.editHistory with
    | none => { originalText := (versions[0]?.map (·.text)).getD "",
                editedAt := now, editCount := 1 : EditHistory }
    | some eh => { eh with editedAt := now, editCount := eh.editCount + 1 }
  { message with
    versions := some versions
    text := newText
    editHistory := some editHistory }

/-- `editMessageWithVersions`: load, apply `editedMessage` to the addressed
message, save.  Returns false (leaving the store untouched) when the
conversation or the message does not exist. -/
def editMessageWithVersions (st : Store) (conversationId : String)
    (messageIndex : Nat) (newText : String) (now : String) : Bool × Store :=
  match loadConversation st conversationId with
  | none => (false, st)
  | some conversation =>
    match conversation.messages[messageIndex]? with
    | none => (false, st)
    | some message =>
      let message := editedMessage message conversation.createdAt newText now
      let conversation := { conversation with
        messages := conversation.messages.set messageIndex message, updatedAt := now }
      (true, saveConversation st conversation now)

/-- The message-level effect of `addResponseVersion`: like an edit, but the
version number is `correlatedVersion || (versions.length + 1)` (a
`correlatedVersion` of 0 is falsy in JavaScript), and the provider is also
mirrored. -/
def responseVersionedMessage (message : ChatMessage) (createdAt newResponseText : String)
    (provider : String) (correlatedVersion : Option Nat) (now : String) : ChatMessage :=
  let versions := message.versions.getD (initialVersions message createdAt)
  let versionNumber :=
    match correlatedVersion with
    | some n => if n ≠ 0 then n else versions.length + 1
    | none => versions.length + 1
  let newVersion : MessageVersion :=
    { text := newResponseText, provider := some provider, timestamp := now,
      version := versionNumber, isActive := true }
  let versions := deactivateAll versions ++ [newVersion]
  { message with
    versions := some versions
    text := newResponseText
    provider := some provider }

/-- `addResponseVersion`: load, apply `responseVersionedMessage` to the
addressed message, save.  Returns false (leaving the store untouched) when
the conversation or the message does not exist. -/
def addResponseVersion (st : Store) (conversationId : String) (messageIndex : Nat)
    (newResponseText : String) (provider : String) (correlatedVersion : Option Nat)
    (now : String) : Bool × Store :=
  match loadConversation st conversationId with
  | none => (false, st)
  | some conversation =>
    match conversation.messages[messageIndex]? with
    | none => (false, st)
    | some message =>
      let message := responseVersionedMessage message conversation.createdAt
        newResponseText provider correlatedVersion now
      let conversation := { conversation with
        messages := conversation.messages.set messageIndex message, updatedAt := now }
      (true, saveConversation st conversation now)

/-- Deactivate every version, then reactivate the first version carrying
`versionNumber` (the element JavaScript's `find` returns a live reference
to), mirroring its text and provider onto the message. -/
def switchMessageTo (message : ChatMessage) (vs : List MessageVersion)
    (target : MessageVersion) (versionNumber : Nat) : ChatMessage :=
  let i := vs.findIdx (fun v => v.version = versionNumber)
  let vs := (deactivateAll vs).set i { target with isActive := true }
  { message with versions := some vs, text := target.text, provider := target.provider }

/-- `reduce((latest, current) => current.version > latest.version ? current :
latest)`: the first version with the maximal version number. -/
def latestVersion (v0 : MessageVersion) (vs : List MessageVersion) : MessageVersion :=
  vs.foldl (fun latest current => if latest.version < current.version then current else latest) v0

/-- `switchToMessageVersion`: activate the requested version of the
addressed message; when the message is a user message immediately followed
by a model message with versions, also switch that reply to the version
with the same number, or failing that to its latest version.  All failure
paths return false without saving. -/
def switchToMessageVersion (st : Store) (conversationId : String)
    (messageIndex : Nat) (versionNumber : Nat) (now : String) : Bool × Store :=
  match loadConversation st conversationId with
  | none => (false, st)
  | some conversation =>
    match conversation.messages[messageIndex]? with
    | none => (false, st)
    | some message =>
      match message.versions with
      | none => (false, st)
      | some vs =>
        match vs.find? (fun v => v.version = versionNumber) with
        | none => (false, st)
        | some targetVersion =>
          let message := switchMessageTo message vs targetVersion versionNumber
          let messages := conversation.messages.set messageIndex message
          let messages :=
            if message.role = .user then
              match messages[messageIndex + 1]? with
              | none => messages
              | some nextMessage =>
                match nextMessage.versions with
                | some nvs =>
                  if nextMessage.role = .model ∧ nvs.length > 0 then
                    match nvs.find? (fun v => v.version = versionNumber) with
                    | some correspondingResponse =>
                      messages.set (messageIndex + 1)
                        (switchMessageTo nextMessage nvs correspondingResponse versionNumber)
                    | none =>
                      match nvs with
                      | [] => messages
                      | v0 :: rest =>
                        let latest := latestVersion v0 rest
                        let j := nvs.findIdx (fun v => v.version = latest.version)
                        let nvs' := (deactivateAll nvs).set j { latest with isActive := true }
                        messages.set (messageIndex + 1)
                          { nextMessage with
                            versions := some nvs'
                            text := latest.text
                            provider := latest.provider }
                  else messages
                | none => messages
            else messages
          let conversation := { conversation with messages := messages, updatedAt := now }
          (true, saveConversation st conversation now)

end Conversations

namespace Conversations

/-- Looking up the key just written by `setRecord` yields the new record. -/
theorem find?_setRecord (convs : List (String × Conversation)) (id : String) (c : Conversation) :
    (setRecord convs id c).find? (fun kv => kv.1 = id) = some (id, c) := by
  induction convs with
  | nil => simp [setRecord]
  | cons kv rest ih =>
    by_cases h : kv.1 = id
    · simp [setRecord, h]
    · simp [setRecord, h, List.find?_cons, ih]

/-- Loading right after saving yields the saved conversation with its
`updatedAt` rewritten. -/
theorem loadConversation_saveConversation (st : Store) (c : Conversation) (now : String) :
    loadConversation (saveConversation st c now) c.id = some { c with updatedAt := now } := by
  unfold loadConversation saveConversation
  rw [find?_setRecord]
  rfl

end Conversations

open Conversations in
/-- C10: `switchToMessageVersion` returns false and leaves the persisted
store completely unchanged whenever the conversation does not exist, the
message index is out of range, the message has no versions array, or no
stored version carries the requested number. -/
theorem c10_switchToMessageVersion_failure_leaves_store
    (st : Store) (conversationId : String) (messageIndex versionNumber : Nat) (now : String)
    (h : loadConversation st conversationId = none ∨
      ∃ c, loadConversation st conversationId = some c ∧
        (c.messages[messageIndex]? = none ∨
          ∃ m, c.messages[messageIndex]? = some m ∧
            (m.versions = none ∨
              ∃ vs, m.versions = some vs ∧
                vs.find? (fun v => v.version = versionNumber) = none))) :
    switchToMessageVersion st conversationId messageIndex versionNumber now = (false, st) := by
  unfold switchToMessageVersion
  rcases h with h | ⟨c, hc, h⟩
  · simp only [h]
  · rcases h with h | ⟨m, hm, h⟩
    · simp only [hc, h]
    · rcases h with h | ⟨vs, hvs, h⟩
      · simp only [hc, hm, h]
      · simp only [hc, hm, hvs, h]

/-- Witness for C10: on the empty store and on a store holding one
conversation with a versionless message, failing switches return false with
the store unchanged. -/
theorem c10_switchToMessageVersion_failure_leaves_store_witness :
    (Conversations.switchToMessageVersion ⟨[], []⟩ "c" 0 1 "t" = (false, ⟨[], []⟩)) ∧
    (Conversations.switchToMessageVersion
        ⟨[("c", ⟨"c", none, "t0", "t0", "gemini", "m",
            [⟨.user, "hello", none, none, none, none, none, none, none⟩], none, none⟩)],
          ["c"]⟩ "c" 0 1 "t"
      = (false,
        ⟨[("c", ⟨"c", none, "t0", "t0", "gemini", "m",
            [⟨.user, "hello", none, none, none, none, none, none, none⟩], none, none⟩)],
          ["c"]⟩)) := by
  constructor
  · exact c10_switchToMessageVersion_failure_leaves_store _ "c" 0 1 "t" (Or.inl (by decide))
  · exact c10_switchToMessageVersion_failure_leaves_store _ "c" 0 1 "t"
      (Or.inr ⟨_, rfl, Or.inr ⟨_, rfl, Or.inl rfl⟩⟩)

namespace Conversations

/-- Apply a sequence of `(newText, now)` edits through
`editMessageWithVersions`, threading the store. -/
def applyEdits (st : Store) (conversationId : String) (messageIndex : Nat) :
    List (String × String) → Store
  | [] => st
  | e :: rest =>
    applyEdits (editMessageWithVersions st conversationId messageIndex e.1 e.2).2
      conversationId messageIndex rest

/-- Every element produced by `deactivateAll` is inactive. -/
theorem isActive_deactivateAll (vs : List MessageVersion) :
    ∀ v ∈ deactivateAll vs, v.isActive = false := by
  intro v hv
  obtain ⟨w, _, rfl⟩ := List.mem_map.mp hv
  rfl

/-- Message invariant after `k` edits: the versions list splits into `k`
inactive versions followed by one active version whose text the message
mirrors. -/
def VersionsInv (k : Nat) (m : ChatMessage) : Prop :=
  ∃ init last, m.versions = some (init ++ [last]) ∧ init.length = k ∧
    (∀ v ∈ init, v.isActive = false) ∧ last.isActive = true ∧ m.text = last.text

/-- The first edit of a versionless message establishes the invariant. -/
theorem versionsInv_one_of_none (m : ChatMessage) (hv : m.versions = none)
    (createdAt newText now : String) :
    VersionsInv 1 (editedMessage m createdAt newText now) := by
  refine ⟨[{ text := m.text, provider := m.provider, timestamp := createdAt,
             version := 1, isActive := false }],
          { text := newText, provider := m.provider, timestamp := now,
            version := 2, isActive := true }, ?_, rfl, ?_, rfl, rfl⟩
  · simp [editedMessage, hv, initialVersions, deactivateAll]
  · intro v hv'
    simp only [List.mem_singleton] at hv'
    subst hv'
    rfl

/-- Each further edit preserves the invariant, incrementing the count. -/
theorem versionsInv_step (k : Nat) (m : ChatMessage) (h : VersionsInv k m)
    (createdAt newText now : String) :
    VersionsInv (k + 1) (editedMessage m createdAt newText now) := by
  obtain ⟨init, last, hv, hlen, hinact, hact, htext⟩ := h
  refine ⟨deactivateAll (init ++ [last]),
          { text := newText, provider := m.provider, timestamp := now,
            version := (init ++ [last]).length + 1, isActive := true }, ?_, ?_, ?_, rfl, rfl⟩
  · simp [editedMessage, hv]
  · simp [deactivateAll, hlen]
  · exact isActive_deactivateAll _

/-- Store-level effect of a successful edit. -/
theorem editMessageWithVersions_success (st : Store) (conversationId : String)
    (messageIndex : Nat) (newText now : String) (c : Conversation) (m : ChatMessage)
    (hc : loadConversation st conversationId = some c)
    (hm : c.messages[messageIndex]? = some m) :
    editMessageWithVersions st conversationId messageIndex newText now =
      (true, saveConversation st
        { c with
          messages := c.messages.set messageIndex (editedMessage m c.createdAt newText now)
          updatedAt := now } now) := by
  unfold editMessageWithVersions
  simp only [hc, hm]

/-- After a successful edit, the conversation reloads with the edited
message in place and everything else intact. -/
theorem load_after_edit (st : Store) (conversationId : String)
    (messageIndex : Nat) (newText now : String) (c : Conversation) (m : ChatMessage)
    (hid : c.id = conversationId)
    (hc : loadConversation st conversationId = some c)
    (hm : c.messages[messageIndex]? = some m) :
    loadConversation (editMessageWithVersions st conversationId messageIndex newText now).2
        conversationId =
      some { c with
        messages := c.messages.set messageIndex (editedMessage m c.createdAt newText now)
        updatedAt := now } := by
  rw [editMessageWithVersions_success st conversationId messageIndex newText now c m hc hm]
  have h := loadConversation_saveConversation st
    { c with
      messages := c.messages.set messageIndex (editedMessage m c.createdAt newText now)
      updatedAt := now } now
  simpa [hid] using h

/-- Iterating edits preserves loadability, the addressed message and the
invariant, adding one version per edit. -/
theorem applyEdits_inv (conversationId : String) (messageIndex : Nat) :
    ∀ (edits : List (String × String)) (st : Store) (c : Conversation) (m : ChatMessage)
      (k : Nat),
      loadConversation st conversationId = some c →
      c.id = conversationId →
      c.messages[messageIndex]? = some m →
      VersionsInv k m →
      ∃ c' m', loadConversation (applyEdits st conversationId messageIndex edits)
          conversationId = some c' ∧
        c'.id = conversationId ∧ c'.messages[messageIndex]? = some m' ∧
        VersionsInv (k + edits.length) m' := by
  intro edits
  induction edits with
  | nil =>
    intro st c m k hc hid hm hinv
    exact ⟨c, m, by simpa [applyEdits] using hc, hid, hm, by simpa using hinv⟩
  | cons e rest ih =>
    intro st c m k hc hid hm hinv
    have hidx : messageIndex < c.messages.length := by
      by_contra hlt
      rw [List.getElem?_eq_none (by omega)] at hm
      exact Option.noConfusion hm
    have hload := load_after_edit st conversationId messageIndex e.1 e.2 c m hid hc hm
    have hm' : ({ c with
        messages := c.messages.set messageIndex (editedMessage m c.createdAt e.1 e.2)
        updatedAt := e.2 : Conversation }).messages[messageIndex]?
        = some (editedMessage m c.createdAt e.1 e.2) := by
      simp [List.getElem?_set_self, hidx]
    have hinv' := versionsInv_step k m hinv c.createdAt e.1 e.2
    have := ih (editMessageWithVersions st conversationId messageIndex e.1 e.2).2
      _ _ (k + 1) hload hid hm' hinv'
    obtain ⟨c', m', h1, h2, h3, h4⟩ := this
    refine ⟨c', m', ?_, h2, h3, ?_⟩
    · simpa [applyEdits] using h1
    · have : k + 1 + rest.length = k + (rest.length + 1) := by omega
      rwa [this] at h4

end Conversations

open Conversations in
/-- C3: starting from a message with no versions array, `N ≥ 1` sequential
`editMessageWithVersions` calls leave the message with `N + 1` stored
versions (the synthesized original plus one per edit), exactly one of which
is active, and the message's top-level text equals the active version's
text. -/
theorem c3_editMessageWithVersions_version_count
    (st : Store) (conversationId : String) (messageIndex : Nat)
    (edits : List (String × String)) (c : Conversation) (m : ChatMessage)
    (hid : c.id = conversationId)
    (hc : loadConversation st conversationId = some c)
    (hm : c.messages[messageIndex]? = some m)
    (hv : m.versions = none)
    (hne : edits ≠ []) :
    ∃ c' m' vs, loadConversation (applyEdits st conversationId messageIndex edits)
        conversationId = some c' ∧
      c'.messages[messageIndex]? = some m' ∧ m'.versions = some vs ∧
      vs.length = edits.length + 1 ∧
      vs.countP (·.isActive) = 1 ∧
      (∀ v ∈ vs, v.isActive = true → m'.text = v.text) := by
  obtain ⟨e, rest, rfl⟩ := List.exists_cons_of_ne_nil hne
  have hidx : messageIndex < c.messages.length := by
    by_contra hlt
    rw [List.getElem?_eq_none (by omega)] at hm
    exact Option.noConfusion hm
  have hload := load_after_edit st conversationId messageIndex e.1 e.2 c m hid hc hm
  have hm' : ({ c with
      messages := c.messages.set messageIndex (editedMessage m c.createdAt e.1 e.2)
      updatedAt := e.2 : Conversation }).messages[messageIndex]?
      = some (editedMessage m c.createdAt e.1 e.2) := by
    simp [List.getElem?_set_self, hidx]
  have hinv1 := versionsInv_one_of_none m hv c.createdAt e.1 e.2
  obtain ⟨c', m', h1, _, h3, h4⟩ := applyEdits_inv conversationId messageIndex rest
    (editMessageWithVersions st conversationId messageIndex e.1 e.2).2 _ _ 1
    hload hid hm' hinv1
  obtain ⟨init, last, hvs, hlen, hinact, hact, htext⟩ := h4
  refine ⟨c', m', init ++ [last], by simpa [applyEdits] using h1, h3, hvs, ?_, ?_, ?_⟩
  · simp only [List.length_append, List.length_singleton, List.length_cons,
      List.length_nil, hlen]
    omega
  · rw [List.countP_append]
    have hz : init.countP (·.isActive) = 0 := by
      rw [List.countP_eq_zero]
      intro v hv'
      simp [hinact v hv']
    simp [hz, List.countP_cons, hact]
  · intro v hv' hva
    rcases List.mem_append.mp hv' with h | h
    · exact absurd hva (by simp [hinact v h])
    · rw [List.mem_singleton.mp h] at *
      exact htext

open Conversations in
/-- Witness for C3: two sequential edits of a fresh versionless message
yield three versions with a single active one mirrored into the text. -/
theorem c3_editMessageWithVersions_version_count_witness :
    ∃ c' m' vs,
      loadConversation
          (applyEdits
            ⟨[("c", ⟨"c", none, "t0", "t0", "gemini", "m",
                [⟨.user, "hello", none, none, none, none, none, none, none⟩], none, none⟩)],
              ["c"]⟩ "c" 0 [("v2", "t1"), ("v3", "t2")]) "c" = some c' ∧
      c'.messages[0]? = some m' ∧ m'.versions = some vs ∧
      vs.length = [("v2", "t1"), ("v3", "t2")].length + 1 ∧
      vs.countP (·.isActive) = 1 ∧
      (∀ v ∈ vs, v.isActive = true → m'.text = v.text) :=
  c3_editMessageWithVersions_version_count _ "c" 0 [("v2", "t1"), ("v3", "t2")]
    _ _ rfl rfl rfl rfl (by decide)

namespace Conversations

/-- A version-creating operation on a fixed message: an edit or a response
version (with its optional correlated number). -/
inductive VersionOp where
  | edit (newText now : String)
  | addResponse (newText provider : String) (correlatedVersion : Option Nat) (now : String)
deriving DecidableEq, Repr

/-- Run one version-creating operation against the store. -/
def applyVersionOp (st : Store) (conversationId : String) (messageIndex : Nat) :
    VersionOp → Store
  | .edit t now => (editMessageWithVersions st conversationId messageIndex t now).2
  | .addResponse t p corr now =>
    (addResponseVersion st conversationId messageIndex t p corr now).2

/-- Run a sequence of version-creating operations against the store. -/
def applyVersionOps (st : Store) (conversationId : String) (messageIndex : Nat) :
    List VersionOp → Store
  | [] => st
  | op :: rest =>
    applyVersionOps (applyVersionOp st conversationId messageIndex op)
      conversationId messageIndex rest

/-- An operation that lets the store assign the version number
automatically: an edit, or a response version whose `correlatedVersion` is
absent or 0 (both falsy in JavaScript). -/
def autoNumbered : VersionOp → Bool
  | .edit _ _ => true
  | .addResponse _ _ corr _ => corr == none || corr == some 0

/-- Version-number invariant: no versions yet, or the stored version
numbers are exactly `1, 2, ..., length`. -/
def NumInv (m : ChatMessage) : Prop :=
  m.versions = none ∨
    ∃ vs, m.versions = some vs ∧ vs.map (·.version) = List.range' 1 vs.length

/-- Deactivating versions does not change their numbers. -/
theorem map_version_deactivateAll (vs : List MessageVersion) :
    (deactivateAll vs).map (·.version) = vs.map (·.version) := by
  simp [deactivateAll, List.map_map]

/-- `deactivateAll` preserves the length. -/
theorem length_deactivateAll (vs : List MessageVersion) :
    (deactivateAll vs).length = vs.length := by
  simp [deactivateAll]

/-- An automatically numbered append `vs ++ [length + 1]` preserves the
`1..n` numbering. -/
theorem numInv_append (vs : List MessageVersion) (v : MessageVersion)
    (hv : vs.map (·.version) = List.range' 1 vs.length)
    (hn : v.version = vs.length + 1) :
    (vs ++ [v]).map (·.version) = List.range' 1 (vs ++ [v]).length := by
  rw [List.map_append, hv, List.length_append, List.length_singleton]
  have : List.range' 1 (vs.length + 1) = List.range' 1 vs.length ++ [1 + vs.length] := by
    rw [List.range'_1_concat]
  rw [this]
  simp only [List.map_append, List.map_cons, List.map_nil, hn, Nat.add_comm]

/-- A message whose versions are the deactivated old versions (synthesizing
the original when absent) followed by one version numbered `length + 1`
keeps the `1..n` numbering. -/
theorem numInv_of_versions_append (m' m : ChatMessage) (createdAt : String)
    (v : MessageVersion)
    (hver : m'.versions = some
      (deactivateAll (m.versions.getD (initialVersions m createdAt)) ++ [v]))
    (hn : v.version = (m.versions.getD (initialVersions m createdAt)).length + 1)
    (h : NumInv m) : NumInv m' := by
  rcases h with h | ⟨vs, hvs, hnum⟩
  · right
    rw [h, Option.getD_none] at hver hn
    refine ⟨_, hver, numInv_append _ _ ?_ ?_⟩
    · simp [initialVersions, deactivateAll, List.range']
    · simpa [initialVersions, deactivateAll] using hn
  · right
    rw [hvs, Option.getD_some] at hver hn
    refine ⟨_, hver, numInv_append _ _ ?_ ?_⟩
    · rw [map_version_deactivateAll, length_deactivateAll, hnum]
    · rw [length_deactivateAll]
      exact hn

/-- The message-level edit keeps the `1..n` numbering. -/
theorem numInv_editedMessage (m : ChatMessage) (createdAt newText now : String)
    (h : NumInv m) : NumInv (editedMessage m createdAt newText now) := by
  exact numInv_of_versions_append _ m createdAt _ rfl rfl h

/-- The message-level response version with a falsy `correlatedVersion`
keeps the `1..n` numbering. -/
theorem numInv_responseVersionedMessage (m : ChatMessage)
    (createdAt newText provider : String) (corr : Option Nat) (now : String)
    (hcorr : corr = none ∨ corr = some 0)
    (h : NumInv m) : NumInv (responseVersionedMessage m createdAt newText provider corr now) := by
  rcases hcorr with rfl | rfl
  · exact numInv_of_versions_append _ m createdAt _ rfl rfl h
  · exact numInv_of_versions_append _ m createdAt _ rfl rfl h

/-- Store-level effect of a successful response version. -/
theorem addResponseVersion_success (st : Store) (conversationId : String)
    (messageIndex : Nat) (newText provider : String) (corr : Option Nat) (now : String)
    (c : Conversation) (m : ChatMessage)
    (hc : loadConversation st conversationId = some c)
    (hm : c.messages[messageIndex]? = some m) :
    addResponseVersion st conversationId messageIndex newText provider corr now =
      (true, saveConversation st
        { c with
          messages := c.messages.set messageIndex
            (responseVersionedMessage m c.createdAt newText provider corr now)
          updatedAt := now } now) := by
  unfold addResponseVersion
  simp only [hc, hm]

/-- After a successful response version, the conversation reloads with the
updated message in place. -/
theorem load_after_addResponse (st : Store) (conversationId : String)
    (messageIndex : Nat) (newText provider : String) (corr : Option Nat) (now : String)
    (c : Conversation) (m : ChatMessage)
    (hc : loadConversation st conversationId = some c)
    (hid : c.id = conversationId)
    (hm : c.messages[messageIndex]? = some m) :
    loadConversation (addResponseVersion st conversationId messageIndex
        newText provider corr now).2 conversationId =
      some { c with
        messages := c.messages.set messageIndex
          (responseVersionedMessage m c.createdAt newText provider corr now)
        updatedAt := now } := by
  rw [addResponseVersion_success st conversationId messageIndex newText provider corr now c m
    hc hm]
  have h := loadConversation_saveConversation st
    { c with
      messages := c.messages.set messageIndex
        (responseVersionedMessage m c.createdAt newText provider corr now)
      updatedAt := now } now
  simpa [hid] using h

/-- Iterating automatically numbered operations preserves the `1..n`
numbering invariant. -/
theorem applyVersionOps_numInv (conversationId : String) (messageIndex : Nat) :
    ∀ (ops : List VersionOp) (st : Store) (c : Conversation) (m : ChatMessage),
      loadConversation st conversationId = some c →
      c.id = conversationId →
      c.messages[messageIndex]? = some m →
      NumInv m →
      (∀ op ∈ ops, autoNumbered op = true) →
      ∃ c' m', loadConversation (applyVersionOps st conversationId messageIndex ops)
          conversationId = some c' ∧
        c'.id = conversationId ∧ c'.messages[messageIndex]? = some m' ∧ NumInv m' := by
  intro ops
  induction ops with
  | nil =>
    intro st c m hc hid hm hinv _
    exact ⟨c, m, by simpa [applyVersionOps] using hc, hid, hm, hinv⟩
  | cons op rest ih =>
    intro st c m hc hid hm hinv hauto
    have hidx : messageIndex < c.messages.length := by
      by_contra hlt
      rw [List.getElem?_eq_none (by omega)] at hm
      exact Option.noConfusion hm
    have hrest : ∀ o ∈ rest, autoNumbered o = true := fun o ho =>
      hauto o (List.mem_cons_of_mem _ ho)
    cases op with
    | edit t now =>
      have hload := load_after_edit st conversationId messageIndex t now c m hid hc hm
      have hm' : ({ c with
          messages := c.messages.set messageIndex (editedMessage m c.createdAt t now)
          updatedAt := now : Conversation }).messages[messageIndex]?
          = some (editedMessage m c.createdAt t now) := by
        simp [List.getElem?_set_self, hidx]
      have hinv' := numInv_editedMessage m c.createdAt t now hinv
      have := ih (applyVersionOp st conversationId messageIndex (.edit t now))
        _ _ hload hid hm' hinv' hrest
      simpa [applyVersionOps] using this
    | addResponse t p corr now =>
      have hcorr : corr = none ∨ corr = some 0 := by
        have := hauto _ (List.mem_cons_self _ _)
        simp only [autoNumbered, Bool.or_eq_true, beq_iff_eq] at this
        tauto
      have hload := load_after_addResponse st conversationId messageIndex t p corr now c m
        hc hid hm
      have hm' : ({ c with
          messages := c.messages.set messageIndex
            (responseVersionedMessage m c.createdAt t p corr now)
          updatedAt := now : Conversation }).messages[messageIndex]?
          = some (responseVersionedMessage m c.createdAt t p corr now) := by
        simp [List.getElem?_set_self, hidx]
      have hinv' := numInv_responseVersionedMessage m c.createdAt t p corr now hcorr hinv
      have := ih (applyVersionOp st conversationId messageIndex (.addResponse t p corr now))
        _ _ hload hid hm' hinv' hrest
      simpa [applyVersionOps] using this

end Conversations

open Conversations in
/-- C4 counterexample: `addResponseVersion` with `correlatedVersion = 1` on
a message with no versions array stores two versions both numbered 1 — the
version number is reused, so the claimed pairwise-distinct strictly
increasing numbering fails for correlated response versions. -/
theorem c4_version_numbers_reused_counterexample :
    ((loadConversation
        (addResponseVersion
          ⟨[("c", ⟨"c", none, "t0", "t0", "gemini", "m",
              [⟨.user, "hello", none, none, none, none, none, none, none⟩], none, none⟩)],
            ["c"]⟩ "c" 0 "regen" "openai" (some 1) "t1").2 "c").map
      (fun c => c.messages.map (fun m => (m.versions.getD []).map (·.version))))
      = some [[1, 1]] ∧
    ¬ List.Pairwise (· < ·) ([1, 1] : List Nat) ∧
    ¬ ([1, 1] : List Nat).Nodup := by
  refine ⟨by decide, by decide, by decide⟩

open Conversations in
/-- C4 amended: starting from a message with no versions array, any
sequence of `editMessageWithVersions` and `addResponseVersion` operations
in which every `addResponseVersion` passes a falsy `correlatedVersion`
(absent or 0, so the number is assigned automatically) leaves the stored
version numbers pairwise distinct and strictly increasing (they are exactly
`1, 2, ..., length`). -/
theorem c4_version_numbers_increasing
    (st : Store) (conversationId : String) (messageIndex : Nat)
    (ops : List VersionOp) (c : Conversation) (m : ChatMessage)
    (hc : loadConversation st conversationId = some c)
    (hid : c.id = conversationId)
    (hm : c.messages[messageIndex]? = some m)
    (hv : m.versions = none)
    (hauto : ∀ op ∈ ops, autoNumbered op = true) :
    ∃ c' m', loadConversation (applyVersionOps st conversationId messageIndex ops)
        conversationId = some c' ∧
      c'.messages[messageIndex]? = some m' ∧
      ∀ vs, m'.versions = some vs →
        List.Pairwise (· < ·) (vs.map (·.version)) ∧ (vs.map (·.version)).Nodup := by
  obtain ⟨c', m', h1, _, h3, h4⟩ := applyVersionOps_numInv conversationId messageIndex ops
    st c m hc hid hm (Or.inl hv) hauto
  refine ⟨c', m', h1, h3, ?_⟩
  intro vs hvs
  rcases h4 with h | ⟨vs', hvs', hnum⟩
  · rw [h] at hvs
    exact Option.noConfusion hvs
  · rw [hvs'] at hvs
    have hvv : vs = vs' := (Option.some.inj hvs).symm
    rw [hvv, hnum]
    have hp : List.Pairwise (· < ·) (List.range' 1 vs'.length) :=
      List.pairwise_lt_range' 1 vs'.length
    exact ⟨hp, hp.imp Nat.ne_of_lt⟩

open Conversations in
/-- Witness for the amended C4: an edit followed by an automatically
numbered response version yields strictly increasing, duplicate-free
version numbers. -/
theorem c4_version_numbers_increasing_witness :
    ∃ c' m',
      loadConversation
          (applyVersionOps
            ⟨[("c", ⟨"c", none, "t0", "t0", "gemini", "m",
                [⟨.user, "hello", none, none, none, none, none, none, none⟩], none, none⟩)],
              ["c"]⟩ "c" 0
            [.edit "v2" "t1", .addResponse "regen" "openai" none "t2"]) "c" = some c' ∧
      c'.messages[0]? = some m' ∧
      ∀ vs, m'.versions = some vs →
        List.Pairwise (· < ·) (vs.map (·.version)) ∧ (vs.map (·.version)).Nodup :=
  c4_version_numbers_increasing _ "c" 0 _ _ _ rfl rfl rfl rfl (by decide)

namespace Conversations

/-- `find?` returns the head of the tail when nothing in the initial
segment matches. -/
theorem find?_first_match (p : MessageVersion → Bool) (l₂ : List MessageVersion)
    (tv : MessageVersion) (hp : p tv = true) :
    ∀ (l₁ : List MessageVersion), (∀ v ∈ l₁, p v = false) →
      (l₁ ++ tv :: l₂).find? p = some tv := by
  intro l₁
  induction l₁ with
  | nil => intro _; simp [List.find?_cons, hp]
  | cons v rest ih =>
    intro h
    have hv : p v = false := h v (List.mem_cons_self _ _)
    simp only [List.cons_append, List.find?_cons, hv]
    exact ih (fun w hw => h w (List.mem_cons_of_mem _ hw))

/-- `findIdx` finds the first match at the length of the clean initial
segment. -/
theorem findIdx_first_match (p : MessageVersion → Bool) (l₂ : List MessageVersion)
    (tv : MessageVersion) (hp : p tv = true) :
    ∀ (l₁ : List MessageVersion), (∀ v ∈ l₁, p v = false) →
      (l₁ ++ tv :: l₂).findIdx p = l₁.length := by
  intro l₁
  induction l₁ with
  | nil => intro _; simp [List.findIdx_cons, hp]
  | cons v rest ih =>
    intro h
    have hv : p v = false := h v (List.mem_cons_self _ _)
    simp only [List.cons_append, List.findIdx_cons, hv, cond_false, List.length_cons]
    rw [ih (fun w hw => h w (List.mem_cons_of_mem _ hw))]

/-- Setting the position right after an initial segment replaces the head
of the tail. -/
theorem set_at_length (x : MessageVersion) (b : MessageVersion) (l₂ : List MessageVersion) :
    ∀ (l₁ : List MessageVersion), (l₁ ++ b :: l₂).set l₁.length x = l₁ ++ x :: l₂ := by
  intro l₁
  induction l₁ with
  | nil => rfl
  | cons v rest ih => simp [List.set_cons_succ, ih]

/-- Deactivating an already inactive version is the identity. -/
theorem deactivate_eq_self (v : MessageVersion) (h : v.isActive = false) :
    ({ v with isActive := false } : MessageVersion) = v := by
  obtain ⟨t, p, ts, ver, act⟩ := v
  simp only at h
  rw [h]

/-- Deactivating a list of inactive versions is the identity. -/
theorem deactivateAll_eq_self (l : List MessageVersion)
    (h : ∀ v ∈ l, v.isActive = false) : deactivateAll l = l := by
  induction l with
  | nil => rfl
  | cons v rest ih =>
    simp only [deactivateAll, List.map_cons]
    rw [deactivate_eq_self v (h v (List.mem_cons_self _ _))]
    have := ih (fun w hw => h w (List.mem_cons_of_mem _ hw))
    simpa [deactivateAll] using this

/-- Setting an index back to the element it already holds is the identity. -/
theorem set_eq_self_of_getElem? {α : Type} (l : List α) :
    ∀ (i : Nat) (a : α), l[i]? = some a → l.set i a = l := by
  induction l with
  | nil => intro i a h; exact Option.noConfusion h
  | cons x rest ih =>
    intro i a h
    cases i with
    | zero =>
      simp only [List.getElem?_cons_zero, Option.some.injEq] at h
      rw [← h]
      rfl
    | succ j =>
      simp only [List.getElem?_cons_succ] at h
      simp [List.set_cons_succ, ih j a h]

/-- Re-activating the already active target of a consistent versions list
is the identity on the list. -/
theorem switchMessageTo_eq_self (m : ChatMessage) (l₁ l₂ : List MessageVersion)
    (tv : MessageVersion) (versionNumber : Nat)
    (hver : tv.version = versionNumber) (hact : tv.isActive = true)
    (hl₁ : ∀ v ∈ l₁, v.isActive = false ∧ v.version ≠ versionNumber)
    (hl₂ : ∀ v ∈ l₂, v.isActive = false)
    (hvs : m.versions = some (l₁ ++ tv :: l₂))
    (htext : m.text = tv.text) (hprov : m.provider = tv.provider) :
    switchMessageTo m (l₁ ++ tv :: l₂) tv versionNumber = m := by
  unfold switchMessageTo
  have hidx : (l₁ ++ tv :: l₂).findIdx (fun v => v.version = versionNumber) = l₁.length := by
    apply findIdx_first_match _ _ _ (by simp [hver])
    intro v hv
    simp [(hl₁ v hv).2]
  have hdeact : deactivateAll (l₁ ++ tv :: l₂)
      = l₁ ++ ({ tv with isActive := false } : MessageVersion) :: l₂ := by
    unfold deactivateAll
    rw [List.map_append, List.map_cons]
    have e1 : List.map (fun v => ({ v with isActive := false } : MessageVersion)) l₁ = l₁ :=
      deactivateAll_eq_self l₁ (fun v hv => (hl₁ v hv).1)
    have e2 : List.map (fun v => ({ v with isActive := false } : MessageVersion)) l₂ = l₂ :=
      deactivateAll_eq_self l₂ hl₂
    rw [e1, e2]
  dsimp only
  rw [hidx, hdeact, set_at_length]
  have htv : ({ ({ tv with isActive := false } : MessageVersion) with isActive := true }
      : MessageVersion) = tv := by
    obtain ⟨t, p, ts, ver, act⟩ := tv
    simp only at hact
    rw [hact]
  rw [htv, ← hvs, htext.symm, hprov.symm]

end Conversations

open Conversations in
/-- C5 counterexample: switching a user message to its already-active
version is not a no-op on the stored state: the correlation rule also
switches the following model message.  Here the user message's version 1 is
already active, yet the switch rewrites the reply's text from `"Y"` (its
active version 2) to `"X"` (its version 1). -/
theorem c5_switch_active_version_not_idempotent_counterexample :
    ((loadConversation
        (switchToMessageVersion
          ⟨[("c", ⟨"c", none, "t0", "t0", "gemini", "m",
              [⟨.user, "A", none, none, none, none, none,
                 some [⟨"A", none, "t0", 1, true⟩, ⟨"B", none, "t0", 2, false⟩], none⟩,
               ⟨.model, "Y", some "openai", none, none, none, none,
                 some [⟨"X", some "openai", "t0", 1, false⟩,
                       ⟨"Y", some "openai", "t0", 2, true⟩], none⟩], none, none⟩)],
            ["c"]⟩ "c" 0 1 "t1").2 "c").map (fun c => c.messages.map (·.text)))
      = some ["A", "X"] ∧
    ((loadConversation
        (⟨[("c", ⟨"c", none, "t0", "t0", "gemini", "m",
            [⟨.user, "A", none, none, none, none, none,
               some [⟨"A", none, "t0", 1, true⟩, ⟨"B", none, "t0", 2, false⟩], none⟩,
             ⟨.model, "Y", some "openai", none, none, none, none,
               some [⟨"X", some "openai", "t0", 1, false⟩,
                     ⟨"Y", some "openai", "t0", 2, true⟩], none⟩], none, none⟩)],
          ["c"]⟩ : Store) "c").map (fun c => c.messages.map (·.text)))
      = some ["A", "Y"] := by
  refine ⟨by decide, by decide⟩

open Conversations in
/-- C5 amended: switching a message to its already-active version leaves
every stored message unchanged (only `updatedAt` refreshes) provided the
message mirrors its active version — the first version bearing the
requested number is the unique active one and text/provider match it — and
the cross-message correlation rule does not fire: the message is a model
message, or it is not immediately followed by a model message with a
non-empty versions list. -/
theorem c5_switch_active_version_idempotent
    (st : Store) (conversationId : String) (messageIndex versionNumber : Nat) (now : String)
    (c : Conversation) (m : ChatMessage) (l₁ l₂ : List MessageVersion) (tv : MessageVersion)
    (hc : loadConversation st conversationId = some c)
    (hid : c.id = conversationId)
    (hm : c.messages[messageIndex]? = some m)
    (hvs : m.versions = some (l₁ ++ tv :: l₂))
    (hver : tv.version = versionNumber) (hact : tv.isActive = true)
    (hl₁ : ∀ v ∈ l₁, v.isActive = false ∧ v.version ≠ versionNumber)
    (hl₂ : ∀ v ∈ l₂, v.isActive = false)
    (htext : m.text = tv.text) (hprov : m.provider = tv.provider)
    (hnocorr : m.role = .model ∨
      ∀ nm, c.messages[messageIndex + 1]? = some nm →
        ¬(nm.role = .model ∧ ∃ nvs, nm.versions = some nvs ∧ nvs ≠ [])) :
    switchToMessageVersion st conversationId messageIndex versionNumber now
      = (true, saveConversation st { c with updatedAt := now } now) ∧
    loadConversation
        (switchToMessageVersion st conversationId messageIndex versionNumber now).2
        conversationId = some { c with updatedAt := now } := by
  have hfind : (l₁ ++ tv :: l₂).find? (fun v => v.version = versionNumber) = some tv := by
    apply find?_first_match _ _ _ (by simp [hver])
    intro v hv
    simp [(hl₁ v hv).2]
  have hswitch : switchMessageTo m (l₁ ++ tv :: l₂) tv versionNumber = m :=
    switchMessageTo_eq_self m l₁ l₂ tv versionNumber hver hact hl₁ hl₂ hvs htext hprov
  have hset : c.messages.set messageIndex m = c.messages :=
    set_eq_self_of_getElem? c.messages messageIndex m hm
  have hmain : switchToMessageVersion st conversationId messageIndex versionNumber now
      = (true, saveConversation st { c with updatedAt := now } now) := by
    unfold switchToMessageVersion
    simp only [hc, hm, hvs, hfind, hswitch, hset]
    rcases hnocorr with hrole | hnext
    · have : ¬ (m.role = Role.user) := by
        rw [hrole]
        intro h
        exact Role.noConfusion h
      simp only [if_neg this]
    · by_cases hrole : m.role = .user
      · simp only [if_pos hrole]
        cases hnm : c.messages[messageIndex + 1]? with
        | none => simp [hnm]
        | some nm =>
          cases hnv : nm.versions with
          | none => simp [hnm, hnv]
          | some nvs =>
            have hcond : ¬(nm.role = .model ∧ nvs.length > 0) := by
              intro ⟨h1, h2⟩
              exact hnext nm hnm ⟨h1, nvs, hnv, by
                intro hnil
                rw [hnil] at h2
                exact Nat.lt_irrefl 0 h2⟩
            simp only [hnm, hnv, hcond, if_false]
      · simp only [if_neg hrole]
  refine ⟨hmain, ?_⟩
  rw [hmain]
  have h := loadConversation_saveConversation st { c with updatedAt := now } now
  simpa [hid] using h

open Conversations in
/-- Witness for the amended C5: switching a model message (no correlation)
to its already-active version returns true and leaves the record unchanged
apart from `updatedAt`. -/
theorem c5_switch_active_version_idempotent_witness :
    switchToMessageVersion
        ⟨[("c", ⟨"c", none, "t0", "t0", "gemini", "m",
            [⟨.model, "Y", some "openai", none, none, none, none,
               some [⟨"X", some "openai", "t0", 1, false⟩,
                     ⟨"Y", some "openai", "t0", 2, true⟩], none⟩], none, none⟩)],
          ["c"]⟩ "c" 0 2 "t1"
      = (true, saveConversation
          ⟨[("c", ⟨"c", none, "t0", "t0", "gemini", "m",
              [⟨.model, "Y", some "openai", none, none, none, none,
                 some [⟨"X", some "openai", "t0", 1, false⟩,
                       ⟨"Y", some "openai", "t0", 2, true⟩], none⟩], none, none⟩)],
            ["c"]⟩
          { (⟨"c", none, "t0", "t0", "gemini", "m",
              [⟨.model, "Y", some "openai", none, none, none, none,
                 some [⟨"X", some "openai", "t0", 1, false⟩,
                       ⟨"Y", some "openai", "t0", 2, true⟩], none⟩], none, none⟩ : Conversation)
            with updatedAt := "t1" } "t1") :=
  (c5_switch_active_version_idempotent
    ⟨[("c", ⟨"c", none, "t0", "t0", "gemini", "m",
        [⟨.model, "Y", some "openai", none, none, none, none,
           some [⟨"X", some "openai", "t0", 1, false⟩,
                 ⟨"Y", some "openai", "t0", 2, true⟩], none⟩], none, none⟩)],
      ["c"]⟩ "c" 0 2 "t1"
    ⟨"c", none, "t0", "t0", "gemini", "m",
      [⟨.model, "Y", some "openai", none, none, none, none,
         some [⟨"X", some "openai", "t0", 1, false⟩,
               ⟨"Y", some "openai", "t0", 2, true⟩], none⟩], none, none⟩
    ⟨.model, "Y", some "openai", none, none, none, none,
      some [⟨"X", some "openai", "t0", 1, false⟩,
            ⟨"Y", some "openai", "t0", 2, true⟩], none⟩
    [⟨"X", some "openai", "t0", 1, false⟩] [] ⟨"Y", some "openai", "t0", 2, true⟩
    rfl rfl rfl rfl rfl rfl (by decide) (by decide) rfl rfl (Or.inl rfl)).1

/-! Durable message queue (`utils/messageQueue.ts`).  Persistence writes and
listener notifications carry no additional queue state and are not
modelled; the per-item send parameters live under separate keys and do not
influence the retry state machine.  Delivery outcomes of
`generateText`/connectivity are an oracle `outcome : id → Option String`
(`none` = success, `some e` = the thrown error's message). -/

namespace MessageQueue

/-- `status: 'pending' | 'sending' | 'failed' | 'sent'`. -/
inductive QStatus where
  | pending
  | sending
  | failed
  | sent
deriving DecidableEq, Repr

/-- `QueuedMessage` record. -/
structure QueuedMessage where
  id : String
  conversationId : String
  message : Conversations.ChatMessage
  timestamp : String
  retryCount : Nat
  maxRetries : Nat
  status : QStatus
  error : Option String
deriving DecidableEq, Repr

/-- `MAX_RETRIES = 3`. -/
def MAX_RETRIES : Nat := 3

/-- The entry built by `addMessage`: `retryCount = 0`, `maxRetries =
MAX_RETRIES`, `status = 'pending'`. -/
def addMessage (id conversationId : String) (message : Conversations.ChatMessage)
    (timestamp : String) : QueuedMessage :=
  { id := id, conversationId := conversationId, message := message,
    timestamp := timestamp, retryCount := 0, maxRetries := MAX_RETRIES,
    status := .pending, error := none }

/-- `if (error) message.error = error`: the error field is only overwritten
by a truthy (non-empty) string. -/
def errUpdate (err : Option String) (old : Option String) : Option String :=
  match err with
  | some e => if e = "" then old else some e
  | none => old

/-- Update the first entry with the given id (JavaScript `find` returns a
live reference that is mutated in place). -/
def updateFirst (q : List QueuedMessage) (id : String)
    (f : QueuedMessage → QueuedMessage) : List QueuedMessage :=
  match q with
  | [] => []
  | m :: rest => if m.id = id then f m :: rest else m :: updateFirst rest id f

/-- `updateMessageStatus`. -/
def updateMessageStatus (q : List QueuedMessage) (id : String) (status : QStatus)
    (err : Option String) : List QueuedMessage :=
  updateFirst q id (fun m => { m with status := status, error := errUpdate err m.error })

/-- `removeMessage`: drop every entry with the id (`filter(msg => msg.id
!== id)`). -/
def removeMessage : List QueuedMessage → String → List QueuedMessage
  | [], _ => []
  | m :: rest, id =>
    if m.id = id then removeMessage rest id else m :: removeMessage rest id

/-- The entry currently stored under an id (first match, as JavaScript
`find`). -/
def getById : List QueuedMessage → String → Option QueuedMessage
  | [], _ => none
  | m :: rest, id => if m.id = id then some m else getById rest id

/-- The ids of the entries with `status === 'pending'`, in order (the
`pendingMessages` snapshot of a drain pass, by id). -/
def pendingIds : List QueuedMessage → List String
  | [] => []
  | m :: rest =>
    if m.status = .pending then m.id :: pendingIds rest else pendingIds rest

/-- One iteration of the `for (const queuedMessage of pendingMessages)`
body for the id `i`: mark failed when the retry budget is exhausted,
otherwise attempt delivery (`processSingleMessage` sets `sending`, then on
success sets `sent` and removes the entry; on failure the catch block
increments `retryCount`, records the error and re-marks the entry `failed`
or `pending`).  The second component lists the delivery attempts made. -/
def passStep (outcome : String → Option String) (q : List QueuedMessage)
    (i : String) : List QueuedMessage × List String :=
  match getById q i with
  | none => (q, [])
  | some m =>
    if m.maxRetries ≤ m.retryCount then
      (updateMessageStatus q i .failed (some "Max retries exceeded"), [])
    else
      match outcome i with
      | none =>
        (removeMessage
          (updateMessageStatus (updateMessageStatus q i .sending none) i .sent none) i, [i])
      | some e =>
        let q1 := updateMessageStatus q i .sending none
        let rc := m.retryCount + 1
        let q2 := updateFirst q1 i (fun m' => { m' with retryCount := rc, error := some e })
        (if m.maxRetries ≤ rc then updateMessageStatus q2 i .failed (some e)
         else updateMessageStatus q2 i .pending (some e), [i])

/-- The net effect of `passStep` on the entry itself, and the number of
delivery attempts it makes. -/
def stepEntry (outcome : String → Option String) (m : QueuedMessage) :
    Option QueuedMessage × Nat :=
  if m.maxRetries ≤ m.retryCount then
    (some { m with status := .failed, error := errUpdate (some "Max retries exceeded") m.error },
     0)
  else
    match outcome m.id with
    | none => (none, 1)
    | some e =>
      (some { m with
          retryCount := m.retryCount + 1
          status := if m.maxRetries ≤ m.retryCount + 1 then .failed else .pending
          error := some e }, 1)

/-- Fold of `passStep` over a snapshot of pending ids. -/
def passGo (outcome : String → Option String)
    (ids : List String) (acc : List QueuedMessage × List String) :
    List QueuedMessage × List String :=
  ids.foldl (fun acc i =>
    let s := passStep outcome acc.1 i
    (s.1, acc.2 ++ s.2)) acc

/-- One drain pass: snapshot the pending entries, then process each. -/
def drainPass (outcome : String → Option String) (q : List QueuedMessage) :
    List QueuedMessage × List String :=
  passGo outcome (pendingIds q) (q, [])

/-- `k` drain passes, accumulating all delivery attempts. -/
def drainRuns (outcome : String → Option String) (q : List QueuedMessage) :
    Nat → List QueuedMessage × List String
  | 0 => (q, [])
  | k + 1 =>
    let p := drainRuns outcome q k
    let d := drainPass outcome p.1
    (d.1, p.2 ++ d.2)

end MessageQueue


namespace MessageQueue

/-- `updateFirst` with an id-preserving update leaves entries under other
ids alone. -/
theorem getById_updateFirst_ne (i j : String) (f : QueuedMessage → QueuedMessage)
    (hf : ∀ m, (f m).id = m.id) (hij : j ≠ i) :
    ∀ (q : List QueuedMessage), getById (updateFirst q i f) j = getById q j := by
  intro q
  induction q with
  | nil => rfl
  | cons m rest ih =>
    by_cases h : m.id = i
    · have h1 : ¬ (f m).id = j := by
        rw [hf m, h]
        exact fun hc => hij hc.symm
      have h2 : ¬ m.id = j := by
        rw [h]
        exact fun hc => hij hc.symm
      simp only [updateFirst, if_pos h, getById, if_neg h1, if_neg h2]
    · simp only [updateFirst, if_neg h, getById]
      by_cases h2 : m.id = j
      · simp only [if_pos h2]
      · simp only [if_neg h2]
        exact ih

/-- `updateFirst` maps the stored entry through the update. -/
theorem getById_updateFirst_self (i : String) (f : QueuedMessage → QueuedMessage)
    (hf : ∀ m, (f m).id = m.id) :
    ∀ (q : List QueuedMessage), getById (updateFirst q i f) i = (getById q i).map f := by
  intro q
  induction q with
  | nil => rfl
  | cons m rest ih =>
    by_cases h : m.id = i
    · have h1 : (f m).id = i := by rw [hf m, h]
      simp only [updateFirst, if_pos h, getById, if_pos h1, Option.map_some']
    · simp only [updateFirst, if_neg h, getById, if_neg h]
      exact ih

/-- Removal leaves entries under other ids alone. -/
theorem getById_removeMessage_ne (i j : String) (hij : j ≠ i) :
    ∀ (q : List QueuedMessage), getById (removeMessage q i) j = getById q j := by
  intro q
  induction q with
  | nil => rfl
  | cons m rest ih =>
    by_cases h : m.id = i
    · have h2 : ¬ m.id = j := by
        rw [h]
        exact fun hc => hij hc.symm
      simp only [removeMessage, if_pos h, getById, if_neg h2]
      exact ih
    · simp only [removeMessage, if_neg h, getById]
      by_cases h2 : m.id = j
      · simp only [if_pos h2]
      · simp only [if_neg h2]
        exact ih

/-- Removal deletes the entry under the id. -/
theorem getById_removeMessage_self (i : String) :
    ∀ (q : List QueuedMessage), getById (removeMessage q i) i = none := by
  intro q
  induction q with
  | nil => rfl
  | cons m rest ih =>
    by_cases h : m.id = i
    · simp only [removeMessage, if_pos h]
      exact ih
    · simp only [removeMessage, if_neg h, getById, if_neg h]
      exact ih

/-- The status/error updates of the queue preserve ids. -/
theorem statusUpdate_id (status : QStatus) (err : Option String) (m : QueuedMessage) :
    ({ m with status := status, error := errUpdate err m.error } : QueuedMessage).id = m.id :=
  rfl

/-- `updateMessageStatus` leaves entries under other ids alone. -/
theorem getById_updateMessageStatus_ne (q : List QueuedMessage) (i j : String)
    (status : QStatus) (err : Option String) (hij : j ≠ i) :
    getById (updateMessageStatus q i status err) j = getById q j :=
  getById_updateFirst_ne i j
    (fun m => { m with status := status, error := errUpdate err m.error })
    (fun _ => rfl) hij q

/-- `updateMessageStatus` maps the stored entry through the update. -/
theorem getById_updateMessageStatus_self (q : List QueuedMessage) (i : String)
    (status : QStatus) (err : Option String) :
    getById (updateMessageStatus q i status err) i =
      (getById q i).map
        (fun m => { m with status := status, error := errUpdate err m.error }) :=
  getById_updateFirst_self i
    (fun m => { m with status := status, error := errUpdate err m.error })
    (fun _ => rfl) q

/-- A `passStep` for a different id leaves the entry alone and makes no
attempt on our id. -/
theorem passStep_ne (outcome : String → Option String) (q : List QueuedMessage)
    (i j : String) (hij : j ≠ i) :
    getById (passStep outcome q i).1 j = getById q j ∧
      ((passStep outcome q i).2.count j = 0) := by
  unfold passStep
  cases hq : getById q i with
  | none => exact ⟨rfl, rfl⟩
  | some m =>
    by_cases hguard : m.maxRetries ≤ m.retryCount
    · simp only [if_pos hguard]
      exact ⟨getById_updateMessageStatus_ne q i j _ _ hij, rfl⟩
    · simp only [if_neg hguard]
      cases houtcome : outcome i with
      | none =>
        constructor
        · rw [getById_removeMessage_ne i j hij,
            getById_updateMessageStatus_ne _ i j _ _ hij,
            getById_updateMessageStatus_ne _ i j _ _ hij]
        · simp [List.count_cons, hij]
      | some e =>
        constructor
        · by_cases hcap : m.maxRetries ≤ m.retryCount + 1
          · simp only [if_pos hcap]
            rw [getById_updateMessageStatus_ne _ i j _ _ hij,
              getById_updateFirst_ne i j
                (fun m' => { m' with retryCount := m.retryCount + 1, error := some e })
                (fun _ => rfl) hij,
              getById_updateMessageStatus_ne _ i j _ _ hij]
          · simp only [if_neg hcap]
            rw [getById_updateMessageStatus_ne _ i j _ _ hij,
              getById_updateFirst_ne i j
                (fun m' => { m' with retryCount := m.retryCount + 1, error := some e })
                (fun _ => rfl) hij,
              getById_updateMessageStatus_ne _ i j _ _ hij]
        · simp [List.count_cons, hij]

/-- A `passStep` for the stored entry's own id transforms the entry by
`stepEntry` and makes `stepEntry`'s number of attempts. -/
theorem passStep_self (outcome : String → Option String) (q : List QueuedMessage)
    (i : String) (m : QueuedMessage) (hq : getById q i = some m) (hid : m.id = i) :
    getById (passStep outcome q i).1 i = (stepEntry outcome m).1 ∧
      (passStep outcome q i).2.count i = (stepEntry outcome m).2 := by
  unfold passStep stepEntry
  rw [hq, hid]
  by_cases hguard : m.maxRetries ≤ m.retryCount
  · simp only [if_pos hguard]
    constructor
    · rw [getById_updateMessageStatus_self, hq]
      simp [hid]
    · rfl
  · simp only [if_neg hguard]
    cases houtcome : outcome i with
    | none =>
      constructor
      · rw [getById_removeMessage_self]
      · simp
    | some e =>
      constructor
      · by_cases hcap : m.maxRetries ≤ m.retryCount + 1
        · simp only [if_pos hcap]
          rw [getById_updateMessageStatus_self,
            getById_updateFirst_self i
              (fun m' => { m' with retryCount := m.retryCount + 1, error := some e })
              (fun _ => rfl),
            getById_updateMessageStatus_self, hq]
          simp only [Option.map_some', Option.some.injEq]
          by_cases he : e = "" <;> simp [errUpdate, he, hid, if_pos hcap]
        · simp only [if_neg hcap]
          rw [getById_updateMessageStatus_self,
            getById_updateFirst_self i
              (fun m' => { m' with retryCount := m.retryCount + 1, error := some e })
              (fun _ => rfl),
            getById_updateMessageStatus_self, hq]
          simp only [Option.map_some', Option.some.injEq]
          by_cases he : e = "" <;> simp [errUpdate, he, hid, if_neg hcap]
      · simp

end MessageQueue

namespace MessageQueue

/-- The stored ids, in order. -/
def idsOf (q : List QueuedMessage) : List String :=
  q.map (·.id)

/-- A found entry carries the looked-up id and belongs to the queue. -/
theorem getById_mem_id (i : String) :
    ∀ (q : List QueuedMessage) (m : QueuedMessage), getById q i = some m →
      m ∈ q ∧ m.id = i := by
  intro q
  induction q with
  | nil => intro m h; exact Option.noConfusion h
  | cons x rest ih =>
    intro m h
    by_cases hx : x.id = i
    · simp only [getById, if_pos hx, Option.some.injEq] at h
      subst h
      exact ⟨List.mem_cons_self _ _, hx⟩
    · simp only [getById, if_neg hx] at h
      obtain ⟨h1, h2⟩ := ih m h
      exact ⟨List.mem_cons_of_mem _ h1, h2⟩

/-- The pending snapshot is a sublist of the stored ids. -/
theorem pendingIds_sublist (q : List QueuedMessage) :
    (pendingIds q).Sublist (idsOf q) := by
  induction q with
  | nil => exact List.Sublist.refl _
  | cons m rest ih =>
    by_cases h : m.status = .pending
    · simpa [pendingIds, idsOf, if_pos h] using List.Sublist.cons₂ m.id ih
    · simpa [pendingIds, idsOf, if_neg h] using List.Sublist.cons m.id ih

/-- A pending stored entry puts its id into the snapshot. -/
theorem mem_pendingIds (i : String) :
    ∀ (q : List QueuedMessage) (m : QueuedMessage), getById q i = some m →
      m.status = .pending → i ∈ pendingIds q := by
  intro q
  induction q with
  | nil => intro m h; exact Option.noConfusion h
  | cons x rest ih =>
    intro m h hp
    by_cases hx : x.id = i
    · simp only [getById, if_pos hx, Option.some.injEq] at h
      subst h
      simp [pendingIds, hp, hx]
    · simp only [getById, if_neg hx] at h
      by_cases hxp : x.status = .pending
      · simp only [pendingIds, if_pos hxp]
        exact List.mem_cons_of_mem _ (ih m h hp)
      · simp only [pendingIds, if_neg hxp]
        exact ih m h hp

/-- With duplicate-free ids, a non-pending stored entry keeps its id out of
the snapshot. -/
theorem not_mem_pendingIds (i : String) :
    ∀ (q : List QueuedMessage) (m : QueuedMessage), (idsOf q).Nodup →
      getById q i = some m → m.status ≠ .pending → i ∉ pendingIds q := by
  intro q
  induction q with
  | nil => intro m _ h; exact Option.noConfusion h
  | cons x rest ih =>
    intro m hnd h hp
    have hnd' : (idsOf rest).Nodup := (List.nodup_cons.mp hnd).2
    have hxid : x.id ∉ idsOf rest := (List.nodup_cons.mp hnd).1
    by_cases hx : x.id = i
    · simp only [getById, if_pos hx, Option.some.injEq] at h
      subst h
      simp only [pendingIds, if_neg hp]
      intro hmem
      exact hxid (hx ▸ (pendingIds_sublist rest).mem hmem)
    · simp only [getById, if_neg hx] at h
      by_cases hxp : x.status = .pending
      · simp only [pendingIds, if_pos hxp]
        intro hmem
        rcases List.mem_cons.mp hmem with hc | hc
        · exact hx hc.symm
        · exact ih m hnd' h hp hc
      · simp only [pendingIds, if_neg hxp]
        exact ih m hnd' h hp

/-- `updateFirst` with an id-preserving update keeps the stored ids. -/
theorem idsOf_updateFirst (i : String) (f : QueuedMessage → QueuedMessage)
    (hf : ∀ m, (f m).id = m.id) :
    ∀ (q : List QueuedMessage), idsOf (updateFirst q i f) = idsOf q := by
  intro q
  induction q with
  | nil => rfl
  | cons m rest ih =>
    by_cases h : m.id = i
    · simp [updateFirst, if_pos h, idsOf, hf]
    · unfold updateFirst
      rw [if_neg h]
      simp only [idsOf, List.map_cons]
      exact congrArg (List.cons m.id) ih

/-- Removal yields a sublist of the queue. -/
theorem removeMessage_sublist (i : String) :
    ∀ (q : List QueuedMessage), (removeMessage q i).Sublist q := by
  intro q
  induction q with
  | nil => exact List.Sublist.refl _
  | cons m rest ih =>
    by_cases h : m.id = i
    · simpa [removeMessage, if_pos h] using List.Sublist.cons m ih
    · simpa [removeMessage, if_neg h] using List.Sublist.cons₂ m ih

/-- `updateMessageStatus` keeps the stored ids. -/
theorem idsOf_updateMessageStatus (q : List QueuedMessage) (i : String)
    (status : QStatus) (err : Option String) :
    idsOf (updateMessageStatus q i status err) = idsOf q :=
  idsOf_updateFirst i
    (fun m => { m with status := status, error := errUpdate err m.error })
    (fun _ => rfl) q

/-- A `passStep` never introduces new ids. -/
theorem idsOf_passStep_sublist (outcome : String → Option String)
    (q : List QueuedMessage) (i : String) :
    (idsOf (passStep outcome q i).1).Sublist (idsOf q) := by
  unfold passStep
  cases hq : getById q i with
  | none => exact List.Sublist.refl _
  | some m =>
    by_cases hguard : m.maxRetries ≤ m.retryCount
    · simp only [if_pos hguard]
      rw [idsOf_updateMessageStatus]
    · simp only [if_neg hguard]
      cases houtcome : outcome i with
      | none =>
        dsimp only
        have h1 : (idsOf (removeMessage
              (updateMessageStatus (updateMessageStatus q i .sending none) i .sent none)
              i)).Sublist
            (idsOf (updateMessageStatus (updateMessageStatus q i .sending none)
              i .sent none)) :=
          List.Sublist.map (fun m : QueuedMessage => m.id) (removeMessage_sublist i _)
        rw [idsOf_updateMessageStatus, idsOf_updateMessageStatus] at h1
        exact h1
      | some e =>
        dsimp only
        by_cases hcap : m.maxRetries ≤ m.retryCount + 1
        · simp only [if_pos hcap]
          rw [idsOf_updateMessageStatus,
            idsOf_updateFirst i
              (fun m' => { m' with retryCount := m.retryCount + 1, error := some e })
              (fun _ => rfl),
            idsOf_updateMessageStatus]
        · simp only [if_neg hcap]
          rw [idsOf_updateMessageStatus,
            idsOf_updateFirst i
              (fun m' => { m' with retryCount := m.retryCount + 1, error := some e })
              (fun _ => rfl),
            idsOf_updateMessageStatus]

/-- `passGo` never introduces new ids. -/
theorem idsOf_passGo_sublist (outcome : String → Option String) :
    ∀ (ids : List String) (q : List QueuedMessage) (a : List String),
      (idsOf (passGo outcome ids (q, a)).1).Sublist (idsOf q) := by
  intro ids
  induction ids with
  | nil => intro q a; exact List.Sublist.refl _
  | cons i rest ih =>
    intro q a
    simp only [passGo, List.foldl_cons]
    exact ((ih (passStep outcome q i).1 _).trans (idsOf_passStep_sublist outcome q i))

end MessageQueue

namespace MessageQueue

/-- `passGo` over ids not containing ours leaves our entry alone and makes
no attempts on it. -/
theorem passGo_ne (outcome : String → Option String) (i : String) :
    ∀ (ids : List String), i ∉ ids →
      ∀ (q : List QueuedMessage) (a : List String),
        getById (passGo outcome ids (q, a)).1 i = getById q i ∧
          (passGo outcome ids (q, a)).2.count i = a.count i := by
  intro ids
  induction ids with
  | nil => intro _ q a; exact ⟨rfl, rfl⟩
  | cons j rest ih =>
    intro hmem q a
    have hij : i ≠ j := fun h => hmem (h ▸ List.mem_cons_self _ _)
    have hrest : i ∉ rest := fun h => hmem (List.mem_cons_of_mem _ h)
    simp only [passGo, List.foldl_cons]
    have hstep := passStep_ne outcome q j i hij
    have hrec := ih hrest (passStep outcome q j).1 (a ++ (passStep outcome q j).2)
    refine ⟨?_, ?_⟩
    · rw [show passGo outcome rest
          ((passStep outcome q j).1, a ++ (passStep outcome q j).2)
          = List.foldl (fun acc i =>
              ((passStep outcome acc.1 i).1, acc.2 ++ (passStep outcome acc.1 i).2)) _ rest
        from rfl] at hrec
      rw [hrec.1, hstep.1]
    · rw [show passGo outcome rest
          ((passStep outcome q j).1, a ++ (passStep outcome q j).2)
          = List.foldl (fun acc i =>
              ((passStep outcome acc.1 i).1, acc.2 ++ (passStep outcome acc.1 i).2)) _ rest
        from rfl] at hrec
      rw [hrec.2, List.count_append, hstep.2, Nat.add_zero]

end MessageQueue

namespace MessageQueue

/-- Effect of one drain pass on a stored entry, given duplicate-free ids:
it is transformed by `stepEntry` when pending and untouched otherwise, and
the attempts made on its id are exactly `stepEntry`'s. -/
theorem drainPass_entry (outcome : String → Option String) (q : List QueuedMessage)
    (i : String) (m : QueuedMessage) (hnd : (idsOf q).Nodup)
    (hq : getById q i = some m) (hid : m.id = i) :
    (m.status = .pending →
      getById (drainPass outcome q).1 i = (stepEntry outcome m).1 ∧
        (drainPass outcome q).2.count i = (stepEntry outcome m).2) ∧
    (m.status ≠ .pending →
      getById (drainPass outcome q).1 i = some m ∧
        (drainPass outcome q).2.count i = 0) := by
  constructor
  · intro hp
    have hmem : i ∈ pendingIds q := mem_pendingIds i q m hq hp
    have hpnd : (pendingIds q).Nodup := (pendingIds_sublist q).nodup hnd
    obtain ⟨l₁, l₂, hsplit⟩ := List.append_of_mem hmem
    have hnl : i ∉ l₁ ∧ i ∉ l₂ := by
      rw [hsplit] at hpnd
      obtain ⟨h1, h2, h3⟩ := List.nodup_append.mp hpnd
      exact ⟨fun hc => h3 hc (List.mem_cons_self _ _), (List.nodup_cons.mp h2).1⟩
    unfold drainPass
    rw [hsplit]
    rw [show passGo outcome (l₁ ++ i :: l₂) (q, [])
        = passGo outcome l₂
            (let s := passStep outcome (passGo outcome l₁ (q, [])).1 i
             (s.1, (passGo outcome l₁ (q, [])).2 ++ s.2)) by
      simp [passGo, List.foldl_append]]
    have hl₁ := passGo_ne outcome i l₁ hnl.1 q []
    have hprev : getById (passGo outcome l₁ (q, [])).1 i = some m := by
      rw [hl₁.1, hq]
    have hstep := passStep_self outcome (passGo outcome l₁ (q, [])).1 i m hprev hid
    have hl₂ := passGo_ne outcome i l₂ hnl.2
      (passStep outcome (passGo outcome l₁ (q, [])).1 i).1
      ((passGo outcome l₁ (q, [])).2 ++ (passStep outcome (passGo outcome l₁ (q, [])).1 i).2)
    refine ⟨?_, ?_⟩
    · rw [hl₂.1, hstep.1]
    · rw [hl₂.2, List.count_append, hstep.2, hl₁.2]
      simp
  · intro hp
    have hmem : i ∉ pendingIds q := not_mem_pendingIds i q m hnd hq hp
    have h := passGo_ne outcome i (pendingIds q) hmem q []
    unfold drainPass
    rw [h.1, h.2, hq]
    exact ⟨rfl, rfl⟩

/-- A drain pass never introduces new ids. -/
theorem idsOf_drainPass_sublist (outcome : String → Option String)
    (q : List QueuedMessage) :
    (idsOf (drainPass outcome q).1).Sublist (idsOf q) :=
  idsOf_passGo_sublist outcome (pendingIds q) q []

end MessageQueue

namespace MessageQueue

/-- Trajectory of a freshly enqueued entry under an always-failing
delivery: after `k` passes it has made `min k MAX_RETRIES` attempts, its
retry count is `min k MAX_RETRIES`, and its status is pending before the
cap and failed from the `MAX_RETRIES`-th pass on. -/
theorem drainRuns_failing (outcome : String → Option String) (q : List QueuedMessage)
    (i : String) (m : QueuedMessage) (hnd : (idsOf q).Nodup)
    (hq : getById q i = some m) (hid : m.id = i)
    (hrc : m.retryCount = 0) (hmax : m.maxRetries = MAX_RETRIES)
    (hst : m.status = .pending) (hfail : outcome i ≠ none) :
    ∀ k, ∃ m', getById (drainRuns outcome q k).1 i = some m' ∧ m'.id = i ∧
      m'.maxRetries = MAX_RETRIES ∧
      m'.retryCount = min k MAX_RETRIES ∧
      m'.status = (if k < MAX_RETRIES then QStatus.pending else QStatus.failed) ∧
      (idsOf (drainRuns outcome q k).1).Nodup ∧
      (drainRuns outcome q k).2.count i = min k MAX_RETRIES := by
  intro k
  induction k with
  | zero =>
    refine ⟨m, hq, hid, hmax, by simpa using hrc, ?_, hnd, rfl⟩
    rw [if_pos (by norm_num [MAX_RETRIES])]
    exact hst
  | succ k ih =>
    obtain ⟨m', h1, h2, h3, h4, h5, h6, h7⟩ := ih
    have hpass := drainPass_entry outcome (drainRuns outcome q k).1 i m' h6 h1 h2
    have hndk : (idsOf (drainRuns outcome q (k + 1)).1).Nodup := by
      show (idsOf (drainPass outcome (drainRuns outcome q k).1).1).Nodup
      exact (idsOf_drainPass_sublist outcome _).nodup h6
    by_cases hk : k < MAX_RETRIES
    · have hpend : m'.status = .pending := by rw [h5, if_pos hk]
      have hstep := hpass.1 hpend
      have hguard : ¬ m'.maxRetries ≤ m'.retryCount := by
        rw [h3, h4]
        omega
      cases houtcome : outcome i with
      | none => exact absurd houtcome hfail
      | some e =>
        have hentry : (stepEntry outcome m').1
            = some { m' with
                retryCount := m'.retryCount + 1
                status := if m'.maxRetries ≤ m'.retryCount + 1 then .failed else .pending
                error := some e } := by
          unfold stepEntry
          rw [if_neg hguard, h2, houtcome]
        have hatt : (stepEntry outcome m').2 = 1 := by
          unfold stepEntry
          rw [if_neg hguard, h2, houtcome]
        refine ⟨{ m' with
            retryCount := m'.retryCount + 1
            status := if m'.maxRetries ≤ m'.retryCount + 1 then .failed else .pending
            error := some e }, ?_, h2, h3, ?_, ?_, hndk, ?_⟩
        · show getById (drainPass outcome (drainRuns outcome q k).1).1 i = _
          rw [hstep.1, hentry]
        · show m'.retryCount + 1 = min (k + 1) MAX_RETRIES
          rw [h4]
          omega
        · show (if m'.maxRetries ≤ m'.retryCount + 1 then QStatus.failed else QStatus.pending)
            = (if k + 1 < MAX_RETRIES then QStatus.pending else QStatus.failed)
          rw [h3, h4]
          by_cases hc : k + 1 < MAX_RETRIES
          · rw [if_pos hc, if_neg (by omega)]
          · rw [if_neg hc, if_pos (by omega)]
        · show ((drainRuns outcome q k).2 ++ (drainPass outcome (drainRuns outcome q k).1).2).count i
            = min (k + 1) MAX_RETRIES
          rw [List.count_append, h7, hstep.2, hatt]
          omega
    · have hfailed : m'.status ≠ .pending := by
        rw [h5, if_neg hk]
        exact fun hc => QStatus.noConfusion hc
      have hstay := hpass.2 hfailed
      refine ⟨m', ?_, h2, h3, ?_, ?_, hndk, ?_⟩
      · show getById (drainPass outcome (drainRuns outcome q k).1).1 i = some m'
        exact hstay.1
      · rw [h4]
        omega
      · rw [h5, if_neg hk, if_neg (by omega)]
      · show ((drainRuns outcome q k).2 ++ (drainPass outcome (drainRuns outcome q k).1).2).count i
          = min (k + 1) MAX_RETRIES
        rw [List.count_append, h7, hstay.2]
        omega

end MessageQueue

open MessageQueue in
/-- C2: a freshly enqueued message whose delivery always fails makes at
most `maxRetries` (= `MAX_RETRIES`) delivery attempts overall, keeps
`retryCount ≤ maxRetries` at every point, and from the `maxRetries`-th
drain pass on is in status `failed` with exactly `maxRetries` attempts
made; independently, any pending message whose delivery succeeds (reaching
status `sent` inside `processSingleMessage`) is removed from the queue. -/
theorem c2_queue_retry_bound
    (outcome : String → Option String) (q : List QueuedMessage)
    (i : String) (m : QueuedMessage) (hnd : (idsOf q).Nodup)
    (hq : getById q i = some m) (hid : m.id = i)
    (hrc : m.retryCount = 0) (hmax : m.maxRetries = MAX_RETRIES)
    (hst : m.status = .pending) (hfail : outcome i ≠ none) :
    (∀ k, (drainRuns outcome q k).2.count i ≤ MAX_RETRIES ∧
      ∃ m', getById (drainRuns outcome q k).1 i = some m' ∧
        m'.retryCount ≤ m'.maxRetries ∧
        (MAX_RETRIES ≤ k → m'.status = .failed ∧
          (drainRuns outcome q k).2.count i = MAX_RETRIES)) ∧
    (∀ (q' : List QueuedMessage) (o' : String → Option String) (j : String)
        (m' : QueuedMessage), getById q' j = some m' → m'.id = j →
      m'.retryCount < m'.maxRetries → o' j = none →
      getById (passStep o' q' j).1 j = none) := by
  constructor
  · intro k
    obtain ⟨m', h1, _, h3, h4, h5, _, h7⟩ :=
      drainRuns_failing outcome q i m hnd hq hid hrc hmax hst hfail k
    refine ⟨by rw [h7]; omega, m', h1, by rw [h3, h4]; omega, fun hk => ?_⟩
    constructor
    · rw [h5, if_neg (by omega)]
    · rw [h7]
      omega
  · intro q' o' j m' hq' hid' hretry hsucc
    have h := passStep_self o' q' j m' hq' hid'
    rw [h.1]
    unfold stepEntry
    rw [if_neg (by omega), hid', hsucc]

open MessageQueue in
/-- Witness for C2: one enqueued message with an always-failing delivery
is failed with exactly three attempts after three passes, and a pending
message with a succeeding delivery is removed. -/
theorem c2_queue_retry_bound_witness :
    ((drainRuns (fun _ => some "network request failed")
        [addMessage "q1" "c1" ⟨.user, "hello", none, none, none, none, none, none, none⟩ "t0"]
        3).2.count "q1" ≤ MAX_RETRIES ∧
      ∃ m', getById (drainRuns (fun _ => some "network request failed")
          [addMessage "q1" "c1" ⟨.user, "hello", none, none, none, none, none, none, none⟩ "t0"]
          3).1 "q1" = some m' ∧
        m'.retryCount ≤ m'.maxRetries ∧
        (MAX_RETRIES ≤ 3 → m'.status = .failed ∧
          (drainRuns (fun _ => some "network request failed")
            [addMessage "q1" "c1" ⟨.user, "hello", none, none, none, none, none, none, none⟩ "t0"]
            3).2.count "q1" = MAX_RETRIES)) ∧
    (getById (passStep (fun _ => none)
        [addMessage "q2" "c1" ⟨.user, "hello", none, none, none, none, none, none, none⟩ "t0"]
        "q2").1 "q2" = none) := by
  have h := c2_queue_retry_bound (fun _ => some "network request failed")
    [addMessage "q1" "c1" ⟨.user, "hello", none, none, none, none, none, none, none⟩ "t0"]
    "q1" (addMessage "q1" "c1" ⟨.user, "hello", none, none, none, none, none, none, none⟩ "t0")
    (by decide) rfl rfl rfl rfl rfl (by simp)
  refine ⟨h.1 3, ?_⟩
  exact h.2 [addMessage "q2" "c1" ⟨.user, "hello", none, none, none, none, none, none, none⟩ "t0"]
    (fun _ => none) "q2"
    (addMessage "q2" "c1" ⟨.user, "hello", none, none, none, none, none, none, none⟩ "t0")
    rfl rfl (by decide) rfl

/-! Response cache (`utils/responseCache.ts`). -/

namespace ResponseCache

/-- `CacheEntry` record (`timestamp` and `ttl` are millisecond values from
`Date.now()`). -/
structure CacheEntry where
  response : String
  timestamp : Int
  provider : Provider
  model : String
  ttl : Int
deriving DecidableEq, Repr

/-- `CacheRequest` record. -/
structure CacheRequest where
  prompt : String
  provider : Provider
  model : String
  imageHash : Option String
  historyHash : Option String
deriving DecidableEq, Repr

/-- History turn shape `\x7btext, role\x7d` taken by `generateHistoryHash`. -/
structure HistMsg where
  text : String
  role : String
deriving DecidableEq, Repr

def CACHE_PREFIX : String := "ai_response_cache_"

def DEFAULT_TTL : Int := 24 * 60 * 60 * 1000

def MAX_CACHE_SIZE : Nat := 100

def CLEANUP_THRESHOLD : Nat := 120

/-- JavaScript `s.substring(0, n)`: the first `n` characters of `s` (all
of `s` when it is shorter). -/
def jsTake (s : String) (n : Nat) : String :=
  String.mk (s.data.take n)

/-- JavaScript `ToInt32`: wrap into `[-2^31, 2^31)`. -/
def toInt32 (n : Int) : Int :=
  (n + 2 ^ 31) % 2 ^ 32 - 2 ^ 31

/-- One step of `simpleHash`:
`hash = ((hash << 5) - hash) + charCode; hash = hash & hash`. -/
def hashStep (h : Int) (c : Char) : Int :=
  toInt32 (toInt32 (h * 32) - h + c.toNat)

/-- The 32-bit accumulator of `simpleHash` over the whole string. -/
def hashLoop (s : String) : Int :=
  s.data.foldl hashStep 0

/-- Base-36 digit characters `0-9a-z` (also the hex digits used in JSON
escapes). -/
def digitChar36 (d : Nat) : Char :=
  if d < 10 then Char.ofNat (48 + d) else Char.ofNat (87 + d)

/-- Fuel-indexed base-36 digit expansion, most significant digit first. -/
def toBase36Aux : Nat → Nat → List Char
  | 0, _ => []
  | _, 0 => []
  | fuel + 1, n => toBase36Aux fuel (n / 36) ++ [digitChar36 (n % 36)]

/-- JavaScript `Number.prototype.toString(36)` on a non-negative integer. -/
def toBase36 (n : Nat) : String :=
  if n = 0 then "0" else String.mk (toBase36Aux (n + 1) n)

/-- `simpleHash`: 32-bit accumulator, then `Math.abs(hash).toString(36)`. -/
def simpleHash (str : String) : String :=
  toBase36 (hashLoop str).natAbs

/-- JSON escape of one character (`JSON.stringify` string escaping). -/
def jsonEscapeChar (c : Char) : List Char :=
  if c = '"' then ['\\', '"']
  else if c = '\\' then ['\\', '\\']
  else if c.toNat = 8 then ['\\', 'b']
  else if c.toNat = 9 then ['\\', 't']
  else if c.toNat = 10 then ['\\', 'n']
  else if c.toNat = 12 then ['\\', 'f']
  else if c.toNat = 13 then ['\\', 'r']
  else if c.toNat < 32 then
    ['\\', 'u', '0', '0', digitChar36 (c.toNat / 16), digitChar36 (c.toNat % 16)]
  else [c]

/-- A JSON string literal. -/
def jsonQuote (s : String) : String :=
  "\"" ++ String.mk ((s.data.map jsonEscapeChar).flatten) ++ "\""

/-- The wire name of a provider. -/
def providerName : Provider → String
  | .gemini => "gemini"
  | .openai => "openai"
  | .anthropic => "anthropic"

/-- `JSON.stringify(keyData)` for the key-data object of
`generateCacheKey`: fields in insertion order, `undefined` fields omitted. -/
def stringifyKeyData (prompt provider model : String)
    (imageHash historyHash : Option String) : String :=
  "\x7b\"prompt\":" ++ jsonQuote prompt ++
    ",\"provider\":" ++ jsonQuote provider ++
    ",\"model\":" ++ jsonQuote model ++
    (match imageHash with
     | some h => ",\"imageHash\":" ++ jsonQuote h
     | none => "") ++
    (match historyHash with
     | some h => ",\"historyHash\":" ++ jsonQuote h
     | none => "") ++ "\x7d"

/-- The serialized key data of a request (prompt truncated to 1000
characters). -/
def keyStringOf (request : CacheRequest) : String :=
  stringifyKeyData (jsTake request.prompt 1000) (providerName request.provider)
    request.model request.imageHash request.historyHash

/-- `generateCacheKey`: prefix plus `simpleHash` of the serialized key
data. -/
def generateCacheKey (request : CacheRequest) : String :=
  CACHE_PREFIX ++ simpleHash (keyStringOf request)

/-- `generateHistoryHash`: hash of the last five turns, each truncated to
100 characters, joined as `role:text` with `|`. -/
def generateHistoryHash (history : List HistMsg) : String :=
  simpleHash (String.intercalate "|"
    ((history.drop (history.length - 5)).map
      (fun msg => msg.role ++ ":" ++ jsTake msg.text 100)))

/-- `generateImageHash`: hash of the first 200 characters of
`base64 || uri || ''` (JavaScript truthiness: empty strings fall through). -/
def generateImageHash (imageData : Option ImageData) : Option String :=
  match imageData with
  | none => none
  | some i =>
    let uriOrEmpty := if i.uri ≠ "" then i.uri else ""
    let imageString :=
      match i.base64 with
      | some b => if b ≠ "" then b else uriOrEmpty
      | none => uriOrEmpty
    some (simpleHash (jsTake imageString 200))

/-- The persisted cache: `AsyncStorage` string keys mapping to (parsed)
entries. -/
abbrev CacheStore : Type := List (String × CacheEntry)

/-- `AsyncStorage.getItem` plus `JSON.parse`. -/
def getItem : CacheStore → String → Option CacheEntry
  | [], _ => none
  | kv :: rest, k => if kv.1 = k then some kv.2 else getItem rest k

/-- `AsyncStorage.setItem`: overwrite in place, or append a new key. -/
def setItem : CacheStore → String → CacheEntry → CacheStore
  | [], k, e => [(k, e)]
  | kv :: rest, k, e => if kv.1 = k then (k, e) :: rest else kv :: setItem rest k e

/-- `AsyncStorage.removeItem`. -/
def removeItem : CacheStore → String → CacheStore
  | [], _ => []
  | kv :: rest, k => if kv.1 = k then removeItem rest k else kv :: removeItem rest k

/-- `AsyncStorage.multiRemove`. -/
def multiRemove (st : CacheStore) (ks : List String) : CacheStore :=
  ks.foldl removeItem st

/-- Whether a storage key belongs to the response-cache namespace
(`key.startsWith(CACHE_PREFIX)`). -/
def hasCachePrefix (k : String) : Bool :=
  CACHE_PREFIX.data.isPrefixOf k.data

/-- The cache keys currently in storage. -/
def cacheKeysOf (st : CacheStore) : List String :=
  (st.map (·.1)).filter hasCachePrefix

/-- Stable insertion of a `(key, timestamp)` pair into a
timestamp-ascending list (JavaScript `sort((a, b) => a.timestamp -
b.timestamp)` is stable). -/
def insertTs (x : String × Int) : List (String × Int) → List (String × Int)
  | [] => [x]
  | y :: ys => if x.2 ≤ y.2 then x :: y :: ys else y :: insertTs x ys

/-- Stable sort by ascending timestamp. -/
def sortTs : List (String × Int) → List (String × Int)
  | [] => []
  | x :: xs => insertTs x (sortTs xs)

/-- Whether the cleanup pass pushes this key onto `entriesToRemove`:
the stored value is missing or the entry has expired. -/
def isStale (st : CacheStore) (now : Int) (k : String) : Bool :=
  match getItem st k with
  | none => true
  | some e => decide (e.ttl < now - e.timestamp)

/-- The `(key, timestamp)` pair the cleanup pass pushes onto
`validEntries` for an unexpired stored entry. -/
def validEntry (st : CacheStore) (now : Int) (k : String) :
    Option (String × Int) :=
  match getItem st k with
  | none => none
  | some e => if e.ttl < now - e.timestamp then none else some (k, e.timestamp)

/-- `periodicCleanup`: below the threshold do nothing; otherwise drop
missing/expired entries, then if still above `MAX_CACHE_SIZE` drop the
oldest remaining entries by timestamp. -/
def periodicCleanup (st : CacheStore) (now : Int) : CacheStore :=
  let cacheKeys := cacheKeysOf st
  if cacheKeys.length < CLEANUP_THRESHOLD then st
  else
    let entriesToRemove := cacheKeys.filter (isStale st now)
    let validEntries := cacheKeys.filterMap (validEntry st now)
    let st1 := multiRemove st entriesToRemove
    if MAX_CACHE_SIZE < validEntries.length then
      let sorted := sortTs validEntries
      let toRemove := (sorted.take (validEntries.length - MAX_CACHE_SIZE)).map (·.1)
      multiRemove st1 toRemove
    else st1

/-- `setCached`: store the entry under the derived key (ttl
`customTtl || DEFAULT_TTL`; 0 is falsy), then run the periodic cleanup. -/
def setCached (st : CacheStore) (request : CacheRequest) (response : String)
    (customTtl : Option Int) (now : Int) : CacheStore :=
  let cacheKey := generateCacheKey request
  let ttl := match customTtl with
    | some t => if t ≠ 0 then t else DEFAULT_TTL
    | none => DEFAULT_TTL
  periodicCleanup
    (setItem st cacheKey
      { response := response, timestamp := now, provider := request.provider,
        model := request.model, ttl := ttl }) now

/-- `getCached`: missing key is a miss; an expired entry or a
provider/model mismatch is a miss that also deletes the entry. -/
def getCached (st : CacheStore) (request : CacheRequest) (now : Int) :
    Option String × CacheStore :=
  let cacheKey := generateCacheKey request
  match getItem st cacheKey with
  | none => (none, st)
  | some entry =>
    if entry.ttl < now - entry.timestamp then (none, removeItem st cacheKey)
    else if entry.provider ≠ request.provider ∨ entry.model ≠ request.model then
      (none, removeItem st cacheKey)
    else (some entry.response, st)

end ResponseCache

namespace ResponseCache

theorem getItem_setItem_self (st : CacheStore) (k : String) (e : CacheEntry) :
    getItem (setItem st k e) k = some e := by
  induction st with
  | nil => simp [setItem, getItem]
  | cons kv rest ih =>
    by_cases h : kv.1 = k
    · simp [setItem, h, getItem]
    · simp [setItem, h, getItem, ih]

theorem getItem_removeItem_self (st : CacheStore) (k : String) :
    getItem (removeItem st k) k = none := by
  induction st with
  | nil => simp [removeItem, getItem]
  | cons kv rest ih =>
    by_cases h : kv.1 = k
    · simp [removeItem, h, ih]
    · simp [removeItem, h, getItem, ih]

theorem cacheKeysOf_setItem_length (st : CacheStore) (k : String) (e : CacheEntry) :
    (cacheKeysOf (setItem st k e)).length ≤ (cacheKeysOf st).length + 1 := by
  induction st with
  | nil =>
    simp only [setItem, cacheKeysOf, List.map_cons, List.map_nil, List.filter_cons,
      List.filter_nil]
    cases hasCachePrefix k <;> simp
  | cons kv rest ih =>
    by_cases h : kv.1 = k
    · subst h
      simp only [setItem, if_pos rfl, cacheKeysOf, List.map_cons]
      cases hp : hasCachePrefix kv.1 <;> simp [List.filter_cons, hp]
    · simp only [setItem, if_neg h, cacheKeysOf, List.map_cons]
      simp only [cacheKeysOf] at ih
      cases hp : hasCachePrefix kv.1 <;> simp [List.filter_cons, hp] <;> omega

theorem periodicCleanup_small (st : CacheStore) (now : Int)
    (h : (cacheKeysOf st).length < CLEANUP_THRESHOLD) :
    periodicCleanup st now = st := by
  unfold periodicCleanup
  rw [if_pos h]

theorem digitChar36_injOn :
    ∀ d1 < 36, ∀ d2 < 36, digitChar36 d1 = digitChar36 d2 → d1 = d2 := by decide

theorem map_digitChar36_inj (l1 l2 : List Nat) (h1 : ∀ x ∈ l1, x < 36)
    (h2 : ∀ x ∈ l2, x < 36) (h : l1.map digitChar36 = l2.map digitChar36) :
    l1 = l2 := by
  induction l1 generalizing l2 with
  | nil => simpa using h.symm
  | cons a t ih =>
    cases l2 with
    | nil => simp at h
    | cons b u =>
      simp only [List.map_cons, List.cons.injEq] at h
      have ha : a = b := digitChar36_injOn a (h1 a (List.mem_cons_self a t)) b
        (h2 b (List.mem_cons_self b u)) h.1
      have ht : t = u := ih u (fun x hx => h1 x (List.mem_cons_of_mem a hx))
        (fun x hx => h2 x (List.mem_cons_of_mem b hx)) h.2
      rw [ha, ht]

theorem toBase36Aux_eq (fuel : Nat) : ∀ n : Nat, n ≤ fuel →
    toBase36Aux fuel n = ((Nat.digits 36 n).map digitChar36).reverse := by
  induction fuel with
  | zero =>
    intro n hn
    have hz : n = 0 := Nat.le_zero.mp hn
    subst hz
    simp [toBase36Aux]
  | succ f ih =>
    intro n hn
    cases n with
    | zero => simp [toBase36Aux]
    | succ m =>
      have hdiv : (m + 1) / 36 ≤ f := by
        have h1 : (m + 1) / 36 < m + 1 := Nat.div_lt_self (Nat.succ_pos m) (by norm_num)
        omega
      simp only [toBase36Aux]
      rw [ih ((m + 1) / 36) hdiv]
      rw [Nat.digits_def' (by norm_num : 1 < 36) (Nat.succ_pos m)]
      simp

theorem toBase36_inj (a b : Nat) (hdata : (toBase36 a).data = (toBase36 b).data) :
    a = b := by
  by_cases ha : a = 0 <;> by_cases hb : b = 0
  · rw [ha, hb]
  · exfalso
    rw [toBase36, if_pos ha, toBase36, if_neg hb, toBase36Aux_eq (b + 1) b (Nat.le_succ b)]
      at hdata
    have hrev := congrArg List.reverse hdata
    simp only [List.reverse_reverse] at hrev
    have hmap : ((Nat.digits 36 b).map digitChar36) = List.map digitChar36 [0] := by
      rw [← hrev]; rfl
    have hdig : Nat.digits 36 b = [0] :=
      map_digitChar36_inj _ _ (fun x hx => Nat.digits_lt_base (by norm_num) hx)
        (by intro x hx; simp at hx; omega) hmap
    have : b = 0 := by
      have hof := Nat.ofDigits_digits 36 b
      rw [hdig] at hof
      simpa [Nat.ofDigits] using hof.symm
    exact hb this
  · exfalso
    rw [toBase36, if_neg ha, toBase36, if_pos hb, toBase36Aux_eq (a + 1) a (Nat.le_succ a)]
      at hdata
    have hrev := congrArg List.reverse hdata
    simp only [List.reverse_reverse] at hrev
    have hmap : ((Nat.digits 36 a).map digitChar36) = List.map digitChar36 [0] := by
      rw [hrev]; rfl
    have hdig : Nat.digits 36 a = [0] :=
      map_digitChar36_inj _ _ (fun x hx => Nat.digits_lt_base (by norm_num) hx)
        (by intro x hx; simp at hx; omega) hmap
    have : a = 0 := by
      have hof := Nat.ofDigits_digits 36 a
      rw [hdig] at hof
      simpa [Nat.ofDigits] using hof.symm
    exact ha this
  · rw [toBase36, if_neg ha, toBase36, if_neg hb, toBase36Aux_eq (a + 1) a (Nat.le_succ a),
      toBase36Aux_eq (b + 1) b (Nat.le_succ b)] at hdata
    have hrev := congrArg List.reverse hdata
    simp only [List.reverse_reverse] at hrev
    have hdig : Nat.digits 36 a = Nat.digits 36 b :=
      map_digitChar36_inj _ _ (fun x hx => Nat.digits_lt_base (by norm_num) hx)
        (fun x hx => Nat.digits_lt_base (by norm_num) hx) hrev
    have hof := Nat.ofDigits_digits 36 a
    rw [hdig, Nat.ofDigits_digits] at hof
    exact hof.symm

end ResponseCache

namespace ResponseCache

theorem getItem_some_of_mem_keys (st : CacheStore) (k : String)
    (h : k ∈ st.map (·.1)) : ∃ e, getItem st k = some e := by
  induction st with
  | nil => simp at h
  | cons kv rest ih =>
    by_cases hk : kv.1 = k
    · exact ⟨kv.2, by simp [getItem, hk]⟩
    · simp only [List.map_cons, List.mem_cons] at h
      rcases h with h | h
      · exact absurd h.symm hk
      · obtain ⟨e, he⟩ := ih h
        exact ⟨e, by simp [getItem, hk, he]⟩

theorem getItem_mem (st : CacheStore) (k : String) (e : CacheEntry)
    (h : getItem st k = some e) : (k, e) ∈ st := by
  induction st with
  | nil => simp [getItem] at h
  | cons kv rest ih =>
    obtain ⟨k1, e1⟩ := kv
    by_cases hk : k1 = k
    · simp only [getItem, if_pos hk] at h
      obtain rfl := Option.some.inj h
      subst hk
      exact List.mem_cons_self _ _
    · simp only [getItem, if_neg hk] at h
      exact List.mem_cons_of_mem _ (ih h)

theorem mem_keys_of_mem_cacheKeysOf (st : CacheStore) (k : String)
    (h : k ∈ cacheKeysOf st) : k ∈ st.map (·.1) :=
  List.mem_of_mem_filter h

theorem filter_isStale_eq_nil (st : CacheStore) (now : Int) (l : List String)
    (h : ∀ k ∈ l, ∃ e, getItem st k = some e ∧ ¬ e.ttl < now - e.timestamp) :
    l.filter (isStale st now) = [] := by
  induction l with
  | nil => rfl
  | cons a t ih =>
    obtain ⟨e, he, hne⟩ := h a (List.mem_cons_self a t)
    have hs : isStale st now a = false := by
      simp [isStale, he, hne]
    rw [List.filter_cons, if_neg (by simp [hs])]
    exact ih (fun k hk => h k (List.mem_cons_of_mem a hk))

theorem filterMap_validEntry_eq_map (st : CacheStore) (now : Int)
    (l : List String)
    (h : ∀ k ∈ l, ∃ e, getItem st k = some e ∧ e.timestamp = now ∧
      ¬ e.ttl < now - e.timestamp) :
    l.filterMap (validEntry st now) = l.map (fun k => (k, now)) := by
  induction l with
  | nil => rfl
  | cons a t ih =>
    obtain ⟨e, he, hts, hne⟩ := h a (List.mem_cons_self a t)
    have hv : validEntry st now a = some (a, now) := by
      simp only [validEntry, he, if_neg hne]
      rw [hts]
    rw [List.filterMap_cons, hv, List.map_cons]
    rw [ih (fun k hk => h k (List.mem_cons_of_mem a hk))]

theorem sortTs_of_const (l : List (String × Int)) (t : Int)
    (h : ∀ x ∈ l, x.2 = t) : sortTs l = l := by
  induction l with
  | nil => rfl
  | cons x xs ih =>
    rw [sortTs, ih (fun y hy => h y (List.mem_cons_of_mem x hy))]
    cases xs with
    | nil => rfl
    | cons y ys =>
      have hx : x.2 = t := h x (List.mem_cons_self x (y :: ys))
      have hy : y.2 = t := h y (List.mem_cons_of_mem x (List.mem_cons_self y ys))
      rw [insertTs, if_pos (by rw [hx, hy])]

theorem getItem_removeItem_of_none (st : CacheStore) (k k' : String)
    (h : getItem st k = none) : getItem (removeItem st k') k = none := by
  induction st with
  | nil => simp [removeItem, getItem]
  | cons kv rest ih =>
    by_cases hk : kv.1 = k
    · simp [getItem, hk] at h
    · simp only [getItem, if_neg hk] at h
      by_cases hk' : kv.1 = k'
      · simp only [removeItem, if_pos hk']
        exact ih h
      · simp only [removeItem, if_neg hk', getItem, if_neg hk]
        exact ih h

theorem getItem_multiRemove_of_none (ks : List String) (st : CacheStore)
    (k : String) (h : getItem st k = none) :
    getItem (multiRemove st ks) k = none := by
  induction ks generalizing st with
  | nil => exact h
  | cons a t ih => exact ih _ (getItem_removeItem_of_none st k a h)

theorem getItem_multiRemove_of_mem (ks : List String) (st : CacheStore)
    (k : String) (h : k ∈ ks) : getItem (multiRemove st ks) k = none := by
  induction ks generalizing st with
  | nil => simp at h
  | cons a t ih =>
    rcases List.mem_cons.mp h with rfl | hmem
    · exact getItem_multiRemove_of_none t _ k (getItem_removeItem_self st k)
    · exact ih (removeItem st a) hmem

/-- When every stored entry carries timestamp `now` and a non-negative
ttl and the threshold is met, `periodicCleanup` removes exactly the
first `length - MAX_CACHE_SIZE` cache keys (the stable sort leaves the
key order unchanged). -/
theorem periodicCleanup_uniform (st : CacheStore) (now : Int)
    (hval : ∀ kv ∈ st, kv.2.timestamp = now ∧ 0 ≤ kv.2.ttl)
    (hbig : ¬ (cacheKeysOf st).length < CLEANUP_THRESHOLD)
    (hover : MAX_CACHE_SIZE < (cacheKeysOf st).length) :
    periodicCleanup st now =
      multiRemove st
        ((cacheKeysOf st).take ((cacheKeysOf st).length - MAX_CACHE_SIZE)) := by
  have hsome : ∀ k ∈ cacheKeysOf st, ∃ e, getItem st k = some e ∧
      e.timestamp = now ∧ ¬ e.ttl < now - e.timestamp := by
    intro k hk
    obtain ⟨e, he⟩ := getItem_some_of_mem_keys st k (mem_keys_of_mem_cacheKeysOf st k hk)
    obtain ⟨hts, httl⟩ := hval (k, e) (getItem_mem st k e he)
    have httl' : (0 : Int) ≤ e.ttl := httl
    refine ⟨e, he, hts, ?_⟩
    rw [hts]
    omega
  have h1 : (cacheKeysOf st).filter (isStale st now) = [] :=
    filter_isStale_eq_nil st now _ (fun k hk => by
      obtain ⟨e, he, _, hne⟩ := hsome k hk
      exact ⟨e, he, hne⟩)
  have h2 : (cacheKeysOf st).filterMap (validEntry st now) =
      (cacheKeysOf st).map (fun k => (k, now)) :=
    filterMap_validEntry_eq_map st now _ hsome
  unfold periodicCleanup
  rw [if_neg hbig]
  dsimp only
  rw [h1, h2]
  have hmr : multiRemove st [] = st := rfl
  rw [hmr]
  rw [if_pos (by rw [List.length_map]; exact hover)]
  rw [sortTs_of_const _ now (by intro x hx; simp at hx; obtain ⟨k, _, hk⟩ := hx; rw [← hk])]
  rw [← List.map_take, List.map_map, List.length_map]
  have hid : ((fun p : String × Int => p.1) ∘ fun k => (k, now)) = id := by
    funext k
    rfl
  rw [hid, List.map_id]

/-- A concrete request and a store that already holds 120 cache entries
(the request's own key plus 119 fillers), all with timestamp 0. -/
def c6Req : CacheRequest := ⟨"p", Provider.openai, "m", none, none⟩

def c6Entry : CacheEntry := ⟨"old", 0, Provider.openai, "m", 86400000⟩

def c6Fillers : CacheStore :=
  (List.range 119).map (fun n => (CACHE_PREFIX ++ "x" ++ toString n, c6Entry))

def c6Store : CacheStore := (generateCacheKey c6Req, c6Entry) :: c6Fillers

def c6Fresh : CacheEntry :=
  ⟨"R", 0, Provider.openai, "m", DEFAULT_TTL⟩

def c6St1 : CacheStore := setItem c6Store (generateCacheKey c6Req) c6Fresh

end ResponseCache

set_option maxRecDepth 40000 in
/-- Counterexample to C6 as stated: with 120 cache entries of equal
timestamp in storage, `setCached` triggers the periodic cleanup, whose
size-limit eviction (stable sort by timestamp, drop the first
`length - 100` keys) removes the entry that was just written, so the
immediately following `getCached` misses. -/
theorem c6_roundtrip_evicted_counterexample :
    (ResponseCache.getCached
        (ResponseCache.setCached ResponseCache.c6Store ResponseCache.c6Req "R" none 0)
        ResponseCache.c6Req 0).1 = none := by
  have hA : ResponseCache.setCached ResponseCache.c6Store ResponseCache.c6Req "R" none 0 =
      ResponseCache.periodicCleanup ResponseCache.c6St1 0 := rfl
  have hval : ∀ kv ∈ ResponseCache.c6St1, kv.2.timestamp = 0 ∧ 0 ≤ kv.2.ttl := by decide
  have hlen : (ResponseCache.cacheKeysOf ResponseCache.c6St1).length = 120 := by decide
  have hclean := ResponseCache.periodicCleanup_uniform ResponseCache.c6St1 0 hval
    (by rw [hlen]; decide) (by rw [hlen]; decide)
  have hmem : ResponseCache.generateCacheKey ResponseCache.c6Req ∈
      (ResponseCache.cacheKeysOf ResponseCache.c6St1).take
        ((ResponseCache.cacheKeysOf ResponseCache.c6St1).length -
          ResponseCache.MAX_CACHE_SIZE) := by decide
  have hnone := ResponseCache.getItem_multiRemove_of_mem _ ResponseCache.c6St1 _ hmem
  rw [hA, hclean]
  unfold ResponseCache.getCached
  dsimp only
  rw [hnone]

/-- **C6** (amended): when fewer than `CLEANUP_THRESHOLD - 1` cache keys
are already stored (so the just-written entry survives the periodic
cleanup), `setCached` followed immediately by `getCached` with the same
request returns the stored response; and a stored entry whose ttl has
elapsed makes `getCached` report a miss and delete the entry from
storage. -/
theorem c6_cache_roundtrip_and_expiry
    (st : ResponseCache.CacheStore) (req : ResponseCache.CacheRequest)
    (R : String) (now : Int)
    (hroom : (ResponseCache.cacheKeysOf st).length + 1 < ResponseCache.CLEANUP_THRESHOLD)
    (st' : ResponseCache.CacheStore) (req' : ResponseCache.CacheRequest)
    (e : ResponseCache.CacheEntry) (now' : Int)
    (hfound : ResponseCache.getItem st' (ResponseCache.generateCacheKey req') = some e)
    (hexp : e.ttl < now' - e.timestamp) :
    (ResponseCache.getCached (ResponseCache.setCached st req R none now) req now).1
        = some R ∧
    ResponseCache.getCached st' req' now' =
      (none, ResponseCache.removeItem st' (ResponseCache.generateCacheKey req')) ∧
    ResponseCache.getItem (ResponseCache.getCached st' req' now').2
      (ResponseCache.generateCacheKey req') = none := by
  refine ⟨?_, ?_, ?_⟩
  · have hle := ResponseCache.cacheKeysOf_setItem_length st
      (ResponseCache.generateCacheKey req)
      ⟨R, now, req.provider, req.model, ResponseCache.DEFAULT_TTL⟩
    have hsmall : (ResponseCache.cacheKeysOf
        (ResponseCache.setItem st (ResponseCache.generateCacheKey req)
          ⟨R, now, req.provider, req.model, ResponseCache.DEFAULT_TTL⟩)).length <
        ResponseCache.CLEANUP_THRESHOLD := by omega
    show (ResponseCache.getCached
        (ResponseCache.periodicCleanup
          (ResponseCache.setItem st (ResponseCache.generateCacheKey req)
            ⟨R, now, req.provider, req.model, ResponseCache.DEFAULT_TTL⟩) now)
        req now).1 = some R
    rw [ResponseCache.periodicCleanup_small _ _ hsmall]
    unfold ResponseCache.getCached
    dsimp only
    rw [ResponseCache.getItem_setItem_self]
    have h0 : now - now = 0 := by omega
    simp [ResponseCache.DEFAULT_TTL, h0]
  · unfold ResponseCache.getCached
    dsimp only
    rw [hfound]
    dsimp only
    rw [if_pos hexp]
  · unfold ResponseCache.getCached
    dsimp only
    rw [hfound]
    dsimp only
    rw [if_pos hexp]
    exact ResponseCache.getItem_removeItem_self st' _

/-- Closed instance of the amended C6 theorem: a round trip on the empty
store yields the stored response, and an expired entry (ttl 10, written
at time 0, read at time 20) is reported as a miss and purged. -/
theorem c6_cache_roundtrip_and_expiry_witness :
    (ResponseCache.getCached
        (ResponseCache.setCached [] ⟨"p", Provider.openai, "m", none, none⟩ "R" none 0)
        ⟨"p", Provider.openai, "m", none, none⟩ 0).1 = some "R" ∧
    ResponseCache.getCached
        [(ResponseCache.generateCacheKey ⟨"p", Provider.openai, "m", none, none⟩,
          ⟨"S", 0, Provider.openai, "m", 10⟩)]
        ⟨"p", Provider.openai, "m", none, none⟩ 20 =
      (none, ResponseCache.removeItem
        [(ResponseCache.generateCacheKey ⟨"p", Provider.openai, "m", none, none⟩,
          ⟨"S", 0, Provider.openai, "m", 10⟩)]
        (ResponseCache.generateCacheKey ⟨"p", Provider.openai, "m", none, none⟩)) ∧
    ResponseCache.getItem
      (ResponseCache.getCached
        [(ResponseCache.generateCacheKey ⟨"p", Provider.openai, "m", none, none⟩,
          ⟨"S", 0, Provider.openai, "m", 10⟩)]
        ⟨"p", Provider.openai, "m", none, none⟩ 20).2
      (ResponseCache.generateCacheKey ⟨"p", Provider.openai, "m", none, none⟩) = none :=
  c6_cache_roundtrip_and_expiry [] ⟨"p", Provider.openai, "m", none, none⟩ "R" 0
    (by decide)
    [(ResponseCache.generateCacheKey ⟨"p", Provider.openai, "m", none, none⟩,
      ⟨"S", 0, Provider.openai, "m", 10⟩)]
    ⟨"p", Provider.openai, "m", none, none⟩ ⟨"S", 0, Provider.openai, "m", 10⟩ 20
    (by simp [ResponseCache.getItem]) (by decide)

namespace ResponseCache

/-- Two one-turn histories with different text but colliding
`simpleHash` values ("user:Aa" and "user:BB" hash identically, exactly
as "Aa" and "BB" collide under the 31-based rolling hash). -/
def c7H1 : List HistMsg := [⟨"Aa", "user"⟩]

def c7H2 : List HistMsg := [⟨"BB", "user"⟩]

def c7Req1 : CacheRequest :=
  ⟨"p", Provider.openai, "m", none, some (generateHistoryHash c7H1)⟩

def c7Req2 : CacheRequest :=
  ⟨"p", Provider.openai, "m", none, some (generateHistoryHash c7H2)⟩

end ResponseCache

set_option maxRecDepth 8000 in
/-- Counterexample to C7 as stated: the requests built from the two
different one-turn histories share prompt, provider, and model, yet
`generateHistoryHash` collides on them, so `generateCacheKey` produces
the very same key and a false cache hit is possible. -/
theorem c7_history_collision_counterexample :
    ResponseCache.c7H1 ≠ ResponseCache.c7H2 ∧
    ResponseCache.c7Req1.prompt = ResponseCache.c7Req2.prompt ∧
    ResponseCache.c7Req1.provider = ResponseCache.c7Req2.provider ∧
    ResponseCache.c7Req1.model = ResponseCache.c7Req2.model ∧
    ResponseCache.generateCacheKey ResponseCache.c7Req1 =
      ResponseCache.generateCacheKey ResponseCache.c7Req2 := by
  decide

/-- **C7** (amended): requests with identical prompt, provider, and
model receive different cache keys whenever the 32-bit hashes
(absolute values) of their serialized key data differ; with a colliding
hash — possible since the history is only hashed — the keys coincide. -/
theorem c7_distinct_hash_distinct_key (r1 r2 : ResponseCache.CacheRequest)
    (_hp : r1.prompt = r2.prompt) (_hpr : r1.provider = r2.provider)
    (_hm : r1.model = r2.model)
    (hh : (ResponseCache.hashLoop (ResponseCache.keyStringOf r1)).natAbs ≠
      (ResponseCache.hashLoop (ResponseCache.keyStringOf r2)).natAbs) :
    ResponseCache.generateCacheKey r1 ≠ ResponseCache.generateCacheKey r2 := by
  intro hkey
  apply hh
  unfold ResponseCache.generateCacheKey ResponseCache.simpleHash at hkey
  have hdata := congrArg String.data hkey
  simp only [String.data_append] at hdata
  exact ResponseCache.toBase36_inj _ _ (List.append_cancel_left hdata)

set_option maxRecDepth 8000 in
/-- Closed instance of the amended C7 theorem: same prompt, provider,
and model, history hashes "a" versus "b", differing 32-bit key hashes,
hence different cache keys. -/
theorem c7_distinct_hash_distinct_key_witness :
    ResponseCache.generateCacheKey ⟨"p", Provider.openai, "m", none, some "a"⟩ ≠
      ResponseCache.generateCacheKey ⟨"p", Provider.openai, "m", none, some "b"⟩ :=
  c7_distinct_hash_distinct_key _ _ rfl rfl rfl (by decide)

/-! AI adapter (`part_006` `generateText` / `streamText`, with
`modelSupportsImages` from `constants/modelOptions`). The network is an
oracle mapping the wire request the adapter would send to the text the
SDK returns. -/

namespace AIAdapter

/-- `ModelOption` entry of `constants/modelOptions`. -/
structure ModelOption where
  label : String
  value : String
  supportsImages : Option Bool
deriving DecidableEq, Repr

/-- The `modelOptions` table. -/
def modelOptions : Provider → List ModelOption
  | .gemini =>
    [⟨"Gemini 1.5 Flash (Latest)", "gemini-1.5-flash-latest", some true⟩,
     ⟨"Gemini 1.5 Pro (Latest)", "gemini-1.5-pro-latest", some true⟩,
     ⟨"Gemini 1.0 Pro", "gemini-pro", some false⟩]
  | .openai =>
    [⟨"GPT-4o", "gpt-4o", some true⟩,
     ⟨"GPT-4o Mini", "gpt-4o-mini", some true⟩,
     ⟨"GPT-4 Turbo", "gpt-4-turbo", some true⟩,
     ⟨"GPT-3.5 Turbo", "gpt-3.5-turbo", some false⟩]
  | .anthropic =>
    [⟨"Claude 3.5 Sonnet", "claude-3-5-sonnet-20241022", some true⟩,
     ⟨"Claude 3 Opus", "claude-3-opus-20240229", some true⟩,
     ⟨"Claude 3.5 Haiku", "claude-3-5-haiku-20241022", some true⟩,
     ⟨"Claude 3 Sonnet", "claude-3-sonnet-20240229", some true⟩,
     ⟨"Claude 3 Haiku", "claude-3-haiku-20240307", some true⟩]

/-- `modelSupportsImages`: look the model up, default to `false`. -/
def modelSupportsImages (provider : Provider) (model : String) : Bool :=
  match (modelOptions provider).find? (fun m => m.value == model) with
  | some modelInfo => modelInfo.supportsImages.getD false
  | none => false

/-- `stripImagesFromHistory`: drop the image of every turn. -/
def stripImagesFromHistory (history : List ChatTurn) : List ChatTurn :=
  history.map (fun turn => { turn with image := none })

/-- The role strings used on the wire and in the history hash
(`'user' | 'model'`). -/
def roleString : Role → String
  | .user => "user"
  | .model => "model"

/-- OpenAI/Anthropic role mapping (`role === 'model' ? 'assistant' :
'user'`). -/
def assistantRole : Role → String
  | .model => "assistant"
  | .user => "user"

/-- One part of a wire message: a text block, or an inline image with its
base64 payload and mime type. -/
inductive WirePart
  | text (s : String)
  | image (data : String) (mimeType : String)
deriving DecidableEq, Repr

/-- A wire message: role plus content parts. -/
structure WireMsg where
  role : String
  parts : List WirePart
deriving DecidableEq, Repr

/-- The request the adapter hands to the provider SDK. -/
structure WireRequest where
  provider : Provider
  model : String
  apiKey : String
  messages : List WireMsg
deriving DecidableEq, Repr

/-- The image part attached when `image && image.base64` is truthy, with
`mimeType || 'image/jpeg'`. -/
def imageParts (image : Option ImageData) : List WirePart :=
  match image with
  | none => []
  | some i =>
    match i.base64 with
    | none => []
    | some b =>
      if b ≠ "" then
        [WirePart.image b
          (match i.mimeType with
           | some m => if m ≠ "" then m else "image/jpeg"
           | none => "image/jpeg")]
      else []

/-- The messages built by the provider branches of `generateText`:
trimmed history turns (role mapped per provider, text part plus optional
image part), then the prompt as a final user message. -/
def wireRequest (provider : Provider) (model apiKey prompt : String)
    (trimmedHistory : List ChatTurn) (processedImage : Option ImageData) :
    WireRequest :=
  let roleOf := match provider with
    | .gemini => roleString
    | .openai => assistantRole
    | .anthropic => assistantRole
  ⟨provider, model, apiKey,
    trimmedHistory.map (fun h => ⟨roleOf h.role, WirePart.text h.text :: imageParts h.image⟩)
      ++ [⟨"user", WirePart.text prompt :: imageParts processedImage⟩]⟩

/-- `generateText`: image-support guard, strip history/image for
non-vision models, trim context, consult the cache (a truthy cached
response returns immediately), otherwise call the network and cache a
non-empty response. -/
def generateText (net : WireRequest → String) (st : ResponseCache.CacheStore)
    (provider : Provider) (model prompt apiKey : String)
    (history : List ChatTurn) (image : Option ImageData) (now : Int) :
    Except String String × ResponseCache.CacheStore :=
  let supportsImages := modelSupportsImages provider model
  if image.isSome && !supportsImages then
    (.error ("Model " ++ model ++
      " does not support image inputs. Please switch to a vision-capable model or send text only."), st)
  else
    let processedHistory := if supportsImages then history else stripImagesFromHistory history
    let processedImage := if supportsImages then image else none
    let trimmedHistory := TokenUtils.trimContextByTokens processedHistory prompt provider
    let cacheRequest : ResponseCache.CacheRequest :=
      { prompt := prompt, provider := provider, model := model,
        imageHash := ResponseCache.generateImageHash processedImage,
        historyHash := ResponseCache.generateHistoryHash
          (trimmedHistory.map (fun t => ⟨t.text, roleString t.role⟩)) }
    let got := ResponseCache.getCached st cacheRequest now
    let cachedTruthy := match got.1 with
      | some c => if c ≠ "" then some c else none
      | none => none
    match cachedTruthy with
    | some c => (.ok c, got.2)
    | none =>
      let responseText :=
        net (wireRequest provider model apiKey prompt trimmedHistory processedImage)
      let st2 :=
        if responseText ≠ "" then
          ResponseCache.setCached got.2 cacheRequest responseText none now
        else got.2
      (.ok responseText, st2)

/-- Observable callback events of `streamText`. -/
inductive StreamEv
  | chunk (s : String)
  | complete
  | error (msg : String)
deriving DecidableEq, Repr

/-- JavaScript `text.split(' ')` on the character list: splitting the
empty string yields `[[]]`, adjacent separators yield empty pieces. -/
def splitOnSpace : List Char → List (List Char)
  | [] => [[]]
  | c :: rest =>
    if c = ' ' then [] :: splitOnSpace rest
    else
      match splitOnSpace rest with
      | [] => [[c]]
      | w :: ws => (c :: w) :: ws

/-- JavaScript `s.split(' ')`. -/
def jsSplit (s : String) : List String :=
  (splitOnSpace s.data).map String.mk

/-- The chunk per word: `words[i] + (i < words.length - 1 ? ' ' : '')`. -/
def wordChunks : List String → List String
  | [] => []
  | [w] => [w]
  | w :: w2 :: ws => (w ++ " ") :: wordChunks (w2 :: ws)

/-- `streamText`: image guard reports `onError`; otherwise run the
non-streaming `generateText` on the processed history/image and replay
its text word by word, ending with `onComplete`; a failure reports
`onError` once. -/
def streamText (net : WireRequest → String) (st : ResponseCache.CacheStore)
    (provider : Provider) (model prompt apiKey : String)
    (history : List ChatTurn) (image : Option ImageData) (now : Int) :
    List StreamEv × ResponseCache.CacheStore :=
  let supportsImages := modelSupportsImages provider model
  if image.isSome && !supportsImages then
    ([.error ("Model " ++ model ++
      " does not support image inputs. Please switch to a vision-capable model or send text only.")], st)
  else
    let processedHistory := if supportsImages then history else stripImagesFromHistory history
    let processedImage := if supportsImages then image else none
    match generateText net st provider model prompt apiKey processedHistory processedImage now with
    | (.ok text, st') =>
      ((wordChunks (jsSplit text)).map StreamEv.chunk ++ [.complete], st')
    | (.error e, st') => ([.error e], st')

/-- The text payload of a chunk event. -/
def chunkText : StreamEv → Option String
  | .chunk s => some s
  | _ => none

def isComplete : StreamEv → Bool
  | .complete => true
  | _ => false

def isErrorEv : StreamEv → Bool
  | .error _ => true
  | _ => false

end AIAdapter

namespace AIAdapter

/-- Joining pieces with a single `' '` — the inverse of `splitOnSpace`. -/
def intercalateSpace : List (List Char) → List Char
  | [] => []
  | [w] => w
  | w :: w2 :: ws => w ++ ' ' :: intercalateSpace (w2 :: ws)

theorem splitOnSpace_ne_nil (l : List Char) : splitOnSpace l ≠ [] := by
  cases l with
  | nil => simp [splitOnSpace]
  | cons c rest =>
    by_cases hc : c = ' '
    · simp [splitOnSpace, hc]
    · simp only [splitOnSpace, if_neg hc]
      cases splitOnSpace rest <;> simp

theorem intercalate_splitOnSpace (l : List Char) :
    intercalateSpace (splitOnSpace l) = l := by
  induction l with
  | nil => rfl
  | cons c rest ih =>
    by_cases hc : c = ' '
    · subst hc
      simp only [splitOnSpace, if_pos rfl]
      obtain ⟨w, ws', hws⟩ := List.exists_cons_of_ne_nil (splitOnSpace_ne_nil rest)
      rw [hws]
      show ' ' :: intercalateSpace (w :: ws') = ' ' :: rest
      rw [← hws, ih]
    · simp only [splitOnSpace, if_neg hc]
      obtain ⟨w, ws', hws⟩ := List.exists_cons_of_ne_nil (splitOnSpace_ne_nil rest)
      rw [hws]
      cases ws' with
      | nil =>
        have hw : w = rest := by
          rw [← ih, hws]
          exact rfl
        show c :: w = c :: rest
        rw [hw]
      | cons w2 ws2 =>
        show c :: (w ++ ' ' :: intercalateSpace (w2 :: ws2)) = c :: rest
        rw [show w ++ ' ' :: intercalateSpace (w2 :: ws2) =
          intercalateSpace (w :: w2 :: ws2) from rfl, ← hws, ih]

theorem flatten_wordChunks (ws : List String) (hne : ws ≠ []) :
    ((wordChunks ws).map String.data).flatten =
      intercalateSpace (ws.map String.data) := by
  induction ws with
  | nil => exact absurd rfl hne
  | cons w rest ih =>
    cases rest with
    | nil => simp [wordChunks, intercalateSpace]
    | cons w2 ws2 =>
      show ((w ++ " ").data :: (wordChunks (w2 :: ws2)).map String.data).flatten = _
      rw [List.flatten_cons, ih (by simp), String.data_append]
      show w.data ++ [' '] ++ intercalateSpace ((w2 :: ws2).map String.data) =
        w.data ++ ' ' :: intercalateSpace ((w2 :: ws2).map String.data)
      rw [List.append_assoc]
      rfl

theorem data_foldl_append (l : List String) :
    ∀ acc : String, (l.foldl (fun r s => r ++ s) acc).data =
      acc.data ++ (l.map String.data).flatten := by
  induction l with
  | nil => intro acc; simp
  | cons s t ih =>
    intro acc
    show (t.foldl (fun r s => r ++ s) (acc ++ s)).data = _
    rw [ih (acc ++ s), String.data_append]
    simp [List.append_assoc]

theorem string_eq_of_data_eq (s t : String) (h : s.data = t.data) : s = t := by
  cases s
  cases t
  exact congrArg String.mk h

theorem join_wordChunks_jsSplit (T : String) :
    String.join (wordChunks (jsSplit T)) = T := by
  apply string_eq_of_data_eq
  show ((wordChunks (jsSplit T)).foldl (fun r s => r ++ s) "").data = T.data
  rw [data_foldl_append]
  show ((wordChunks (jsSplit T)).map String.data).flatten = T.data
  rw [flatten_wordChunks _ (by simp [jsSplit, List.map_eq_nil_iff, splitOnSpace_ne_nil])]
  have hsp : (jsSplit T).map String.data = splitOnSpace T.data := by
    rw [jsSplit, List.map_map]
    have hid : (String.data ∘ String.mk) = id := by
      funext l
      rfl
    rw [hid, List.map_id]
  rw [hsp, intercalate_splitOnSpace]

end AIAdapter

namespace AIAdapter

theorem strip_strip (history : List ChatTurn) :
    stripImagesFromHistory (stripImagesFromHistory history) =
      stripImagesFromHistory history := by
  unfold stripImagesFromHistory
  rw [List.map_map]
  exact List.map_congr_left (fun t _ => rfl)

theorem chunkEvents_props (ch : List String) :
    (ch.map StreamEv.chunk).filterMap chunkText = ch ∧
    (ch.map StreamEv.chunk).countP isComplete = 0 ∧
    (ch.map StreamEv.chunk).countP isErrorEv = 0 := by
  induction ch with
  | nil => exact ⟨rfl, rfl, rfl⟩
  | cons s t ih =>
    refine ⟨?_, ?_, ?_⟩
    · simp only [List.map_cons, List.filterMap_cons, chunkText]
      rw [ih.1]
    · simp only [List.map_cons, List.countP_cons, isComplete]
      rw [ih.2.1]
      simp
    · simp only [List.map_cons, List.countP_cons, isErrorEv]
      rw [ih.2.2]
      simp

end AIAdapter

/-- **C9**: whenever the non-streaming `generateText` succeeds with text
`T`, `streamText` on the same input emits exactly the word chunks of
`T` split on `' '` (each chunk keeping its trailing space except the
last) followed by a single `onComplete`, with no `onError`; the chunk
payloads concatenate to `T` exactly, and the resulting cache store is
the one `generateText` produces. -/
theorem c9_streamText_refines_generateText
    (net : AIAdapter.WireRequest → String) (st : ResponseCache.CacheStore)
    (provider : Provider) (model prompt apiKey : String)
    (history : List ChatTurn) (image : Option ImageData) (now : Int)
    (T : String) (st' : ResponseCache.CacheStore)
    (hgen : AIAdapter.generateText net st provider model prompt apiKey history image now
      = (.ok T, st')) :
    AIAdapter.streamText net st provider model prompt apiKey history image now =
      ((AIAdapter.wordChunks (AIAdapter.jsSplit T)).map AIAdapter.StreamEv.chunk ++
        [AIAdapter.StreamEv.complete], st') ∧
    String.join (AIAdapter.wordChunks (AIAdapter.jsSplit T)) = T ∧
    (((AIAdapter.wordChunks (AIAdapter.jsSplit T)).map AIAdapter.StreamEv.chunk ++
        [AIAdapter.StreamEv.complete]).filterMap AIAdapter.chunkText =
      AIAdapter.wordChunks (AIAdapter.jsSplit T)) ∧
    (((AIAdapter.wordChunks (AIAdapter.jsSplit T)).map AIAdapter.StreamEv.chunk ++
        [AIAdapter.StreamEv.complete]).countP AIAdapter.isComplete = 1) ∧
    (((AIAdapter.wordChunks (AIAdapter.jsSplit T)).map AIAdapter.StreamEv.chunk ++
        [AIAdapter.StreamEv.complete]).countP AIAdapter.isErrorEv = 0) := by
  have hprops := AIAdapter.chunkEvents_props (AIAdapter.wordChunks (AIAdapter.jsSplit T))
  refine ⟨?_, AIAdapter.join_wordChunks_jsSplit T, ?_, ?_, ?_⟩
  · cases hs : AIAdapter.modelSupportsImages provider model with
    | true =>
      unfold AIAdapter.streamText
      simp only [hs, Bool.not_true, Bool.and_false, Bool.false_eq_true, if_false, if_true]
      rw [hgen]
    | false =>
      have himg : image = none := by
        cases himgc : image with
        | none => rfl
        | some i =>
          unfold AIAdapter.generateText at hgen
          rw [himgc] at hgen
          simp [hs] at hgen
      subst himg
      have hgen' : AIAdapter.generateText net st provider model prompt apiKey
          (AIAdapter.stripImagesFromHistory history) none now = (.ok T, st') := by
        rw [← hgen]
        unfold AIAdapter.generateText
        simp only [hs, Option.isSome_none, Bool.and_false, Bool.false_and, Bool.not_false,
          Bool.and_true, Bool.false_eq_true, if_false, Bool.true_eq_false,
          AIAdapter.strip_strip]
      unfold AIAdapter.streamText
      simp only [hs, Option.isSome_none, Bool.not_false, Bool.and_true, Bool.false_eq_true,
        if_false, Bool.false_and, if_true]
      rw [hgen']
  · rw [List.filterMap_append, hprops.1]
    simp [AIAdapter.chunkText]
  · rw [List.countP_append, hprops.2.1]
    simp [AIAdapter.isComplete]
  · rw [List.countP_append, hprops.2.2]
    simp [AIAdapter.isErrorEv]

set_option maxRecDepth 8000 in
/-- Closed instance of C9: with a network oracle answering "hello world"
on the empty store, `streamText` emits the two chunks "hello " and
"world" then completes, and the store gains the cached response. -/
theorem c9_streamText_refines_generateText_witness :
    AIAdapter.streamText (fun _ => "hello world") [] Provider.openai "gpt-4o" "hi" "k"
        [] none 0 =
      ((AIAdapter.wordChunks (AIAdapter.jsSplit "hello world")).map
          AIAdapter.StreamEv.chunk ++ [AIAdapter.StreamEv.complete],
        [(ResponseCache.generateCacheKey ⟨"hi", Provider.openai, "gpt-4o", none, some "0"⟩,
          ⟨"hello world", 0, Provider.openai, "gpt-4o", 86400000⟩)]) ∧
    String.join (AIAdapter.wordChunks (AIAdapter.jsSplit "hello world")) = "hello world" ∧
    (((AIAdapter.wordChunks (AIAdapter.jsSplit "hello world")).map
        AIAdapter.StreamEv.chunk ++ [AIAdapter.StreamEv.complete]).filterMap
      AIAdapter.chunkText = AIAdapter.wordChunks (AIAdapter.jsSplit "hello world")) ∧
    (((AIAdapter.wordChunks (AIAdapter.jsSplit "hello world")).map
        AIAdapter.StreamEv.chunk ++ [AIAdapter.StreamEv.complete]).countP
      AIAdapter.isComplete = 1) ∧
    (((AIAdapter.wordChunks (AIAdapter.jsSplit "hello world")).map
        AIAdapter.StreamEv.chunk ++ [AIAdapter.StreamEv.complete]).countP
      AIAdapter.isErrorEv = 0) :=
  c9_streamText_refines_generateText (fun _ => "hello world") [] Provider.openai "gpt-4o"
    "hi" "k" [] none 0 "hello world"
    [(ResponseCache.generateCacheKey ⟨"hi", Provider.openai, "gpt-4o", none, some "0"⟩,
      ⟨"hello world", 0, Provider.openai, "gpt-4o", 86400000⟩)]
    rfl
